import Mathlib

/-!
Verification development for the core converter of the `sticker-convert`
repository (`src/sticker_convert/converter.py`).

The Python source is shallowly embedded: pure functions become Lean
functions, the stateful bisection loop of `StickerConvert._convert` becomes
explicit state passing over a `SearchSt` record, Python `float` arithmetic
is modelled by exact rationals (every claim below is evaluated only at
points where the float computation is exact), Python `int` by `ℤ`/`ℕ`, and
`None`-able values by `Option`.  Python truthiness (`None` and `0` are both
falsy) is modelled explicitly.  Library calls that live outside the
repository (the actual image quantizer, the png optimizer, the decoder
probe `CodecInfo`) enter the embedding as abstract function parameters or
plain input values.
-/

set_option maxHeartbeats 1000000

namespace StickerConvert

/-- Python `decimal` rounding with `ROUND_HALF_UP` (ties away from zero), as
used by `rounding` in `converter.py` (`Decimal(value).quantize(0, ROUND_HALF_UP)`). -/
def pyRoundHalfUp (q : ℚ) : ℤ :=
  if 0 ≤ q then ⌊q + 1 / 2⌋ else -⌊-q + 1 / 2⌋

/-- The source's `rounding` helper (`converter.py` lines 23-24). -/
def rounding (q : ℚ) : ℤ := pyRoundHalfUp q

/-- Python's builtin `round` on a numeric value: round half to even. -/
def pyRoundHalfEven (q : ℚ) : ℤ :=
  let f := ⌊q⌋
  let frac := q - (f : ℚ)
  if frac < 1 / 2 then f
  else if 1 / 2 < frac then f + 1
  else if f % 2 = 0 then f else f + 1

/-- Python's `int()` conversion on a numeric value: truncation toward zero. -/
def pyTrunc (q : ℚ) : ℤ :=
  if 0 ≤ q then ⌊q⌋ else ⌈q⌉

/-- Python list indexing `l[i]`: negative indices count from the end,
out-of-range access is an `IndexError`, modelled as `none`. -/
def pyIndex {α : Type} (l : List α) (i : ℤ) : Option α :=
  let j : ℤ := if 0 ≤ i then i else (l.length : ℤ) + i
  if 0 ≤ j then l[j.toNat]? else none

/-- Python `range(start, stop, step)` for a nonnegative step
(`range` with `step = 0` raises in Python; modelled as `[]`). -/
def pyRange (start stop step : ℕ) : List ℕ :=
  if h : step = 0 ∨ ¬ start < stop then []
  else start :: pyRange (start + step) stop step
termination_by stop - start
decreasing_by
  push_neg at h
  omega

/-- Python truthiness of an optional integer: `None` and `0` are falsy. -/
def truthyN (o : Option ℕ) : Bool := o.getD 0 != 0

/-- Python truthiness of an optional (possibly negative) integer. -/
def truthyZ (o : Option ℤ) : Bool := o.getD 0 != 0

/-- `get_step_value` (`converter.py` lines 26-51).  The float `power`
parameter and the float `pow` call are abstracted into the function
`power : ℚ → ℚ` standing for `fun x => x ** p`; every claim below either
fixes `p = 1` (so `power = fun x => x`) or only uses `pow 1 p = 1`. -/
def get_step_value (max min : Option ℤ) (step steps : ℕ) (power : ℚ → ℚ)
    (even : Bool) : Option ℤ :=
  let factor : ℚ := if 0 < step then power ((step : ℚ) / (steps : ℚ)) else 0
  match max, min with
  | some M, some m =>
      let v : ℤ := pyRoundHalfEven (((M : ℚ) - (m : ℚ)) * (step : ℚ) / (steps : ℚ) * factor + (m : ℚ))
      if even = true ∧ v % 2 = 1 then some (v + 1) else some v
  | _, _ => none

/-- The fields of the `CompOption` value consumed by `converter.py`.  The
class itself is defined in `job_option.py` (outside the provided sources);
this record models exactly the data interface the converter reads.  The
per-dimension float powers are abstracted as functions, see `get_step_value`. -/
structure CompOption where
  res_w_max : Option ℤ
  res_w_min : Option ℤ
  res_h_max : Option ℤ
  res_h_min : Option ℤ
  quality_max : Option ℤ
  quality_min : Option ℤ
  fps_max : Option ℤ
  fps_min : Option ℤ
  color_max : Option ℤ
  color_min : Option ℤ
  res_power : ℚ → ℚ
  quality_power : ℚ → ℚ
  fps_power : ℚ → ℚ
  color_power : ℚ → ℚ
  steps : ℕ
  duration_min : Option ℕ
  duration_max : Option ℕ
  size_max_img : Option ℕ
  size_max_vid : Option ℕ

/-- One row of the step ladder: `(res_w, res_h, quality, fps, color)`. -/
abbrev StepRow := Option ℤ × Option ℤ × Option ℤ × Option ℤ × Option ℤ

/-- `StickerConvert.generate_steps_list` (`converter.py` lines 288-333):
`for step in range(self.opt_comp.steps, -1, -1)` appends one row per step,
counting down, so array index `k` holds the row for `step = steps - k`. -/
def generate_steps_list (opt : CompOption) : List StepRow :=
  (List.range (opt.steps + 1)).map (fun k =>
    let step := opt.steps - k
    (get_step_value opt.res_w_max opt.res_w_min step opt.steps opt.res_power true,
     get_step_value opt.res_h_max opt.res_h_min step opt.steps opt.res_power true,
     get_step_value opt.quality_max opt.quality_min step opt.steps opt.quality_power false,
     get_step_value opt.fps_max opt.fps_min step opt.steps opt.fps_power false,
     get_step_value opt.color_max opt.color_min step opt.steps opt.color_power false))

theorem pyRoundHalfEven_intCast (n : ℤ) : pyRoundHalfEven (n : ℚ) = n := by
  unfold pyRoundHalfEven
  simp

/-- Round a width/height value up to the next even integer, matching the
`even is True and v % 2 == 1` branch of `get_step_value`. -/
def evenUp (v : ℤ) : ℤ := if v % 2 = 1 then v + 1 else v

theorem get_step_value_top (M m : ℤ) (steps : ℕ) (hs : 1 ≤ steps)
    (power : ℚ → ℚ) (hp : power 1 = 1) (even : Bool) :
    get_step_value (some M) (some m) steps steps power even
      = some (if even = true ∧ M % 2 = 1 then M + 1 else M) := by
  have hs0 : (steps : ℚ) ≠ 0 := Nat.cast_ne_zero.mpr (by omega)
  have hstep : 0 < steps := by omega
  simp only [get_step_value, if_pos hstep, div_self hs0, hp]
  have harg : ((M : ℚ) - (m : ℚ)) * (steps : ℚ) / (steps : ℚ) * 1 + (m : ℚ) = (M : ℚ) := by
    field_simp
  rw [harg, pyRoundHalfEven_intCast]
  split <;> rfl

theorem get_step_value_bot (M m : ℤ) (steps : ℕ)
    (power : ℚ → ℚ) (even : Bool) :
    get_step_value (some M) (some m) 0 steps power even
      = some (if even = true ∧ m % 2 = 1 then m + 1 else m) := by
  have h0 : ¬ (0 : ℕ) < 0 := by omega
  simp only [get_step_value, if_neg h0]
  have harg : ((M : ℚ) - (m : ℚ)) * (((0 : ℕ) : ℕ) : ℚ) / (steps : ℚ) * 0 + (m : ℚ) = (m : ℚ) := by
    push_cast
    ring
  rw [harg, pyRoundHalfEven_intCast]
  split <;> rfl

theorem get_step_value_none_left (m : Option ℤ) (step steps : ℕ)
    (power : ℚ → ℚ) (even : Bool) :
    get_step_value none m step steps power even = none := by
  simp [get_step_value]

theorem get_step_value_none_right (M : Option ℤ) (step steps : ℕ)
    (power : ℚ → ℚ) (even : Bool) :
    get_step_value M none step steps power even = none := by
  cases M <;> simp [get_step_value]

theorem evenUp_ite_mod {v w : ℤ}
    (h : (if v % 2 = 1 then some (v + 1) else some v) = some w) : w % 2 = 0 := by
  by_cases hc : v % 2 = 1
  · rw [if_pos hc] at h
    cases h
    omega
  · rw [if_neg hc] at h
    cases h
    omega

theorem get_step_value_even (max min : Option ℤ) (step steps : ℕ)
    (power : ℚ → ℚ) : ∀ v ∈ get_step_value max min step steps power true, v % 2 = 0 := by
  intro v hv
  cases max with
  | none => simp [get_step_value] at hv
  | some M =>
    cases min with
    | none => simp [get_step_value] at hv
    | some m =>
      simp only [get_step_value, Option.mem_def, eq_self_iff_true, true_and] at hv
      exact evenUp_ite_mod hv

theorem range_map_getD {α : Type} (f : ℕ → α) (n i : ℕ) (d : α) (hi : i < n) :
    ((List.range n).map f).getD i d = f i := by
  rw [List.getD_eq_getElem?_getD]
  simp [List.getElem?_map, List.getElem?_range, hi]

/-- Claim C3 (amended): `get_step_value(max=100, min=0, step=5, steps=10,
power=1)` returns 25 (the code multiplies the linear ramp by the extra
`(step/steps)^power` factor, so the claimed value 50 is wrong); with
`step=0` it returns 0; with `step=10` it returns 100; and with `even=True`
any odd result is incremented by 1, so the returned value is always even. -/
theorem C3_get_step_value_values :
    get_step_value (some 100) (some 0) 5 10 (fun x => x) false = some 25
    ∧ get_step_value (some 100) (some 0) 0 10 (fun x => x) false = some 0
    ∧ get_step_value (some 100) (some 0) 10 10 (fun x => x) false = some 100
    ∧ (∀ (max min : Option ℤ) (step steps : ℕ) (power : ℚ → ℚ),
        ∀ v ∈ get_step_value max min step steps power true, v % 2 = 0) := by
  refine ⟨by norm_num [get_step_value, pyRoundHalfEven],
    by norm_num [get_step_value, pyRoundHalfEven],
    by norm_num [get_step_value, pyRoundHalfEven], ?_⟩
  exact get_step_value_even

/-- Claim C3's first evaluation is false on the code: with `power = 1`
(the identity power function) the value at `step=5, steps=10` is 25, not
the claimed 50, because the rounded expression is
`(max-min) * step/steps * (step/steps)^power + min = 100 * 0.5 * 0.5`. -/
theorem C3_counterexample :
    get_step_value (some 100) (some 0) 5 10 (fun x => x) false ≠ some 50
    ∧ get_step_value (some 100) (some 0) 5 10 (fun x => x) false = some 25 := by
  constructor
  · norm_num [get_step_value, pyRoundHalfEven]
  · norm_num [get_step_value, pyRoundHalfEven]

theorem get_step_value_ex : get_step_value (some 3) (some 1) 1 1 (fun x => x) true = some 4 := by
  rw [get_step_value_top 3 1 1 le_rfl (fun x => x) rfl true]
  norm_num

/-- Witness for the quantified even-result part of `C3_get_step_value_values`
at a concrete input: `get_step_value (some 3) (some 1) 1 1 id true = some 4`. -/
theorem C3_get_step_value_values_witness : (4 : ℤ) % 2 = 0 :=
  C3_get_step_value_values.2.2.2 (some 3) (some 1) 1 1 (fun x => x) 4
    (Option.mem_def.mpr get_step_value_ex)

/-- Concrete options used to exercise the step ladder: an odd width bound
with all other dimensions unconstrained. -/
def optEx : CompOption where
  res_w_max := some 3
  res_w_min := some 1
  res_h_max := none
  res_h_min := none
  quality_max := none
  quality_min := none
  fps_max := none
  fps_min := none
  color_max := none
  color_min := none
  res_power := fun x => x
  quality_power := fun x => x
  fps_power := fun x => x
  color_power := fun x => x
  steps := 1
  duration_min := none
  duration_max := none
  size_max_img := none
  size_max_vid := none

/-- Claim C4 (amended): the ladder has exactly `steps+1` rows; in row 0
quality/fps/color equal their configured max while width/height equal their
configured max rounded up to even (`max+1` when odd); in row `steps` the
same holds with the min bounds; any dimension missing either bound is
`none` in every row. -/
theorem C4_steps_list_spec (opt : CompOption) (hs : 1 ≤ opt.steps)
    (hrp : opt.res_power 1 = 1) (hqp : opt.quality_power 1 = 1)
    (hfp : opt.fps_power 1 = 1) (hcp : opt.color_power 1 = 1) :
    (generate_steps_list opt).length = opt.steps + 1
    ∧ (∀ M m, opt.res_w_max = some M → opt.res_w_min = some m →
        ((generate_steps_list opt).getD 0 default).1 = some (evenUp M))
    ∧ (∀ M m, opt.res_h_max = some M → opt.res_h_min = some m →
        ((generate_steps_list opt).getD 0 default).2.1 = some (evenUp M))
    ∧ (∀ M m, opt.quality_max = some M → opt.quality_min = some m →
        ((generate_steps_list opt).getD 0 default).2.2.1 = some M)
    ∧ (∀ M m, opt.fps_max = some M → opt.fps_min = some m →
        ((generate_steps_list opt).getD 0 default).2.2.2.1 = some M)
    ∧ (∀ M m, opt.color_max = some M → opt.color_min = some m →
        ((generate_steps_list opt).getD 0 default).2.2.2.2 = some M)
    ∧ (∀ M m, opt.res_w_max = some M → opt.res_w_min = some m →
        ((generate_steps_list opt).getD opt.steps default).1 = some (evenUp m))
    ∧ (∀ M m, opt.res_h_max = some M → opt.res_h_min = some m →
        ((generate_steps_list opt).getD opt.steps default).2.1 = some (evenUp m))
    ∧ (∀ M m, opt.quality_max = some M → opt.quality_min = some m →
        ((generate_steps_list opt).getD opt.steps default).2.2.1 = some m)
    ∧ (∀ M m, opt.fps_max = some M → opt.fps_min = some m →
        ((generate_steps_list opt).getD opt.steps default).2.2.2.1 = some m)
    ∧ (∀ M m, opt.color_max = some M → opt.color_min = some m →
        ((generate_steps_list opt).getD opt.steps default).2.2.2.2 = some m)
    ∧ ((opt.res_w_max = none ∨ opt.res_w_min = none) →
        ∀ r ∈ generate_steps_list opt, r.1 = none)
    ∧ ((opt.res_h_max = none ∨ opt.res_h_min = none) →
        ∀ r ∈ generate_steps_list opt, r.2.1 = none)
    ∧ ((opt.quality_max = none ∨ opt.quality_min = none) →
        ∀ r ∈ generate_steps_list opt, r.2.2.1 = none)
    ∧ ((opt.fps_max = none ∨ opt.fps_min = none) →
        ∀ r ∈ generate_steps_list opt, r.2.2.2.1 = none)
    ∧ ((opt.color_max = none ∨ opt.color_min = none) →
        ∀ r ∈ generate_steps_list opt, r.2.2.2.2 = none) := by
  have hlen : (generate_steps_list opt).length = opt.steps + 1 := by
    simp [generate_steps_list]
  have hrow0 : ∀ d, (generate_steps_list opt).getD 0 d =
      (get_step_value opt.res_w_max opt.res_w_min opt.steps opt.steps opt.res_power true,
       get_step_value opt.res_h_max opt.res_h_min opt.steps opt.steps opt.res_power true,
       get_step_value opt.quality_max opt.quality_min opt.steps opt.steps opt.quality_power false,
       get_step_value opt.fps_max opt.fps_min opt.steps opt.steps opt.fps_power false,
       get_step_value opt.color_max opt.color_min opt.steps opt.steps opt.color_power false) := by
    intro d
    rw [generate_steps_list, range_map_getD _ _ _ _ (by omega)]
    simp
  have hrowN : ∀ d, (generate_steps_list opt).getD opt.steps d =
      (get_step_value opt.res_w_max opt.res_w_min 0 opt.steps opt.res_power true,
       get_step_value opt.res_h_max opt.res_h_min 0 opt.steps opt.res_power true,
       get_step_value opt.quality_max opt.quality_min 0 opt.steps opt.quality_power false,
       get_step_value opt.fps_max opt.fps_min 0 opt.steps opt.fps_power false,
       get_step_value opt.color_max opt.color_min 0 opt.steps opt.color_power false) := by
    intro d
    rw [generate_steps_list, range_map_getD _ _ _ _ (by omega)]
    simp
  have hmem : ∀ r ∈ generate_steps_list opt, ∃ step,
      r = (get_step_value opt.res_w_max opt.res_w_min step opt.steps opt.res_power true,
       get_step_value opt.res_h_max opt.res_h_min step opt.steps opt.res_power true,
       get_step_value opt.quality_max opt.quality_min step opt.steps opt.quality_power false,
       get_step_value opt.fps_max opt.fps_min step opt.steps opt.fps_power false,
       get_step_value opt.color_max opt.color_min step opt.steps opt.color_power false) := by
    intro r hr
    rw [generate_steps_list, List.mem_map] at hr
    obtain ⟨k, -, hk⟩ := hr
    exact ⟨opt.steps - k, hk.symm⟩
  have hnone : ∀ (a b : Option ℤ) (step : ℕ) (p : ℚ → ℚ) (e : Bool),
      a = none ∨ b = none → get_step_value a b step opt.steps p e = none := by
    rintro a b step p e (rfl | rfl)
    · exact get_step_value_none_left _ _ _ _ _
    · exact get_step_value_none_right _ _ _ _ _
  refine ⟨hlen, ?_, ?_, ?_, ?_, ?_, ?_, ?_, ?_, ?_, ?_, ?_, ?_, ?_, ?_, ?_⟩
  · intro M m hM hm
    rw [hrow0, hM, hm]
    simp only [get_step_value_top M m opt.steps hs opt.res_power hrp true, evenUp, true_and]
  · intro M m hM hm
    rw [hrow0, hM, hm]
    simp only [get_step_value_top M m opt.steps hs opt.res_power hrp true, evenUp, true_and]
  · intro M m hM hm
    rw [hrow0, hM, hm]
    simp [get_step_value_top M m opt.steps hs opt.quality_power hqp false]
  · intro M m hM hm
    rw [hrow0, hM, hm]
    simp [get_step_value_top M m opt.steps hs opt.fps_power hfp false]
  · intro M m hM hm
    rw [hrow0, hM, hm]
    simp [get_step_value_top M m opt.steps hs opt.color_power hcp false]
  · intro M m hM hm
    rw [hrowN, hM, hm]
    simp only [get_step_value_bot M m opt.steps opt.res_power true, evenUp, true_and]
  · intro M m hM hm
    rw [hrowN, hM, hm]
    simp only [get_step_value_bot M m opt.steps opt.res_power true, evenUp, true_and]
  · intro M m hM hm
    rw [hrowN, hM, hm]
    simp [get_step_value_bot M m opt.steps opt.quality_power false]
  · intro M m hM hm
    rw [hrowN, hM, hm]
    simp [get_step_value_bot M m opt.steps opt.fps_power false]
  · intro M m hM hm
    rw [hrowN, hM, hm]
    simp [get_step_value_bot M m opt.steps opt.color_power false]
  · intro h r hr
    obtain ⟨step, rfl⟩ := hmem r hr
    exact hnone _ _ _ _ _ h
  · intro h r hr
    obtain ⟨step, rfl⟩ := hmem r hr
    exact hnone _ _ _ _ _ h
  · intro h r hr
    obtain ⟨step, rfl⟩ := hmem r hr
    exact hnone _ _ _ _ _ h
  · intro h r hr
    obtain ⟨step, rfl⟩ := hmem r hr
    exact hnone _ _ _ _ _ h
  · intro h r hr
    obtain ⟨step, rfl⟩ := hmem r hr
    exact hnone _ _ _ _ _ h

/-- Claim C4 is false as stated: with an odd configured maximum width the
first ladder row holds `max+1` (the even-alignment bump), not `max`, and the
last row holds `min+1`, not `min`.  Concretely for `res_w_max = 3`,
`res_w_min = 1`, `steps = 1` the ladder is `[(4,...), (2,...)]`. -/
theorem optEx_row0 : ((generate_steps_list optEx).getD 0 default).1 = some 4 := by
  have key : ((generate_steps_list optEx).getD 0 default).1
      = get_step_value (some 3) (some 1) 1 1 (fun x => x) true := by
    rw [generate_steps_list, range_map_getD _ _ _ _ (by norm_num)]
    rfl
  rw [key, get_step_value_ex]

theorem optEx_rowN : ((generate_steps_list optEx).getD optEx.steps default).1 = some 2 := by
  have key : ((generate_steps_list optEx).getD optEx.steps default).1
      = get_step_value (some 3) (some 1) 0 1 (fun x => x) true := by
    rw [generate_steps_list, range_map_getD _ _ _ _ (by norm_num)]
    rfl
  rw [key, get_step_value_bot 3 1 1 (fun x => x) true]
  norm_num

theorem C4_counterexample :
    optEx.res_w_max = some 3 ∧ optEx.res_w_min = some 1
    ∧ ((generate_steps_list optEx).getD 0 default).1 = some 4
    ∧ ((generate_steps_list optEx).getD 0 default).1 ≠ some 3
    ∧ ((generate_steps_list optEx).getD optEx.steps default).1 = some 2
    ∧ ((generate_steps_list optEx).getD optEx.steps default).1 ≠ some 1 := by
  refine ⟨rfl, rfl, optEx_row0, ?_, optEx_rowN, ?_⟩
  · rw [optEx_row0]
    decide
  · rw [optEx_rowN]
    decide

/-- Witness for `C4_steps_list_spec` at the concrete options `optEx`. -/
theorem C4_steps_list_spec_witness :
    (generate_steps_list optEx).length = optEx.steps + 1
    ∧ ((generate_steps_list optEx).getD 0 default).1 = some (evenUp 3)
    ∧ ((generate_steps_list optEx).getD optEx.steps default).1 = some (evenUp 1)
    ∧ (∀ r ∈ generate_steps_list optEx, r.2.2.1 = none) := by
  obtain ⟨h1, h2, -, -, -, -, h7, -, -, -, -, -, -, hq, -, -⟩ :=
    C4_steps_list_spec optEx (by decide) rfl rfl rfl rfl
  exact ⟨h1, h2 3 1 rfl rfl, h7 3 1 rfl rfl, hq (Or.inl rfl)⟩

/-- Midpoint step index `int(rounding((step_lower + step_upper) / 2))`
from the bisection loop of `_convert` (lines 192 and 243). -/
def midStep (lo up : ℕ) : ℕ := (rounding (((lo : ℚ) + (up : ℚ)) / 2)).toNat

/-- Observable outcome of one conversion.  `payload` is the byte string
handed to `compress_done` (written to disk or returned, depending on the
output stem) on success and `none` on `compress_fail`; `size` is the
reported size (`result_size` on success, the last measured size on
failure); `decodeCalls` counts invocations of `frames_import`; `passes`
counts encode-and-measure loop iterations; `framesUsed` records the frame
list handed to `frames_drop` on each pass. -/
structure ConvOutcome (F : Type) where
  success : Bool
  payload : Option (List ℕ)
  size : ℕ
  decodeCalls : ℕ
  passes : ℕ
  framesUsed : List (List F)
  deriving DecidableEq

/-- Mutable state of the bisection loop in `_convert` (lines 180-248):
`step_lower`/`step_upper`/`step_current`, the best result so far
(`self.result`, `self.result_size`, `self.result_step`), plus the
instrumentation counters of `ConvOutcome`. -/
structure SearchSt (F : Type) where
  step_lower : ℕ
  step_upper : ℕ
  step_current : ℕ
  result : Option (List ℕ × ℕ × ℕ)
  passes : ℕ
  framesUsed : List (List F)
  deriving DecidableEq

/-- `self.result_size`: zero until a result is stored (`__init__` line 144). -/
def result_size (r : Option (List ℕ × ℕ × ℕ)) : ℕ := (r.map (fun x => x.2.1)).getD 0

/-- The best-result update of `_convert` lines 229-234:
`if not self.size_max or (self.size <= self.size_max and self.size >= self.result_size)`
(Python truthiness: a `None` or zero budget disables the compliance test). -/
def resultUpdate (size_max : Option ℕ) (r : Option (List ℕ × ℕ × ℕ))
    (tmp : List ℕ) (step : ℕ) : Option (List ℕ × ℕ × ℕ) :=
  if truthyN size_max = false ∨ (tmp.length ≤ size_max.getD 0 ∧ result_size r ≤ tmp.length)
  then some (tmp, tmp.length, step) else r

/-- The `while True` search loop of `_convert` (lines 195-248).  The whole
encode pipeline of one pass (`frames_drop`, `frames_resize`,
`frames_export`, measuring `self.tmp_f`) is abstracted as
`encode : pass index → step index → produced bytes`; it is pass-indexed
because `frames_drop` reads the mutable `self.frames_processed` left over
from the previous pass.  The loop runs on fuel; `none` models
non-termination and never occurs (`convertLoop_term`).
`loopExit` is the loop exit (lines 245-248): `compress_done` with the
stored best result when one exists, `compress_fail` otherwise. -/
def loopExit {F : Type} (st' : SearchSt F) (size : ℕ)
    (result' : Option (List ℕ × ℕ × ℕ)) : ConvOutcome F :=
  match result' with
  | some (data, rsize, _) =>
      { success := true, payload := some data, size := rsize,
        decodeCalls := 1, passes := st'.passes, framesUsed := st'.framesUsed }
  | none =>
      { success := false, payload := none, size := size,
        decodeCalls := 1, passes := st'.passes, framesUsed := st'.framesUsed }

def convertLoop {F : Type} (encode : ℕ → ℕ → List ℕ) (framesRaw : List F)
    (size_max : Option ℕ) : ℕ → SearchSt F → Option (ConvOutcome F)
  | 0, _ => none
  | fuel + 1, st =>
    let tmp := encode st.passes st.step_current
    let size := tmp.length
    let result' := resultUpdate size_max st.result tmp st.step_current
    let st' : SearchSt F :=
      { st with
        result := result'
        passes := st.passes + 1
        framesUsed := st.framesUsed ++ [framesRaw] }
    if 1 < st.step_upper - st.step_lower ∧ truthyN size_max = true then
      let lo := if size ≤ size_max.getD 0 then st.step_lower else st.step_current
      let up := if size ≤ size_max.getD 0 then st.step_current else st.step_upper
      convertLoop encode framesRaw size_max fuel
        { st' with step_lower := lo, step_upper := up, step_current := midStep lo up }
    else
      some (loopExit st' size result')

/-- Modelled from the spec: the byte-size predicate of the compatibility
gate.  `FormatVerify.check_file_size` (`format_verify.py`, not among the
provided sources) is specified as "byte size within bound" (spec 4.2),
checked against the applicable configured budget. -/
def sizeCheck (size_max : Option ℕ) (inBytes : List ℕ) : Bool :=
  match size_max with
  | none => true
  | some b => inBytes.length ≤ b

/-- The five-way predicate conjunction of `check_if_compatible`
(lines 251-273).  The format/resolution/fps/duration predicates of
`FormatVerify` (outside the provided sources) enter as abstract booleans;
the size predicate is `sizeCheck`. -/
def gateHit (fmtOk resOk fpsOk durOk : Bool) (size_max : Option ℕ)
    (inBytes : List ℕ) : Bool :=
  fmtOk && resOk && fpsOk && sizeCheck size_max inBytes && durOk

/-- `check_if_compatible` (lines 250-286): a pure five-way predicate
conjunction; on a hit the original bytes are returned unchanged. -/
def check_if_compatible (fmtOk resOk fpsOk durOk : Bool) (size_max : Option ℕ)
    (inBytes : List ℕ) : Option (List ℕ) :=
  if gateHit fmtOk resOk fpsOk durOk size_max inBytes
  then some inBytes else none

/-- Python truthiness of an `Optional[bytes]` value (`if result:` on line 173):
`None` and empty bytes are both falsy. -/
def truthyBytes (r : Option (List ℕ)) : Bool :=
  match r with
  | none => false
  | some d => !d.isEmpty

/-- `_convert` (lines 171-248) together with the `steps` coercion of
`__init__` (lines 131-132, `if not self.opt_comp.steps: self.opt_comp.steps = 1`)
and the budget selection (lines 183-186).  Line 173's `if result:` is a
truthiness test on `Optional[bytes]`: the gate path is taken only for a
non-`None`, nonempty result; line 188's `if self.size_max is None` is a real
identity test, so a configured budget of 0 still starts at the midpoint.
The decoded frame list `framesRaw` is produced by the single `frames_import`
call (line 194); the `decodeCalls` field records how often that call happens. -/
def _convert {F : Type} (fmtOk resOk fpsOk durOk : Bool) (inBytes : List ℕ)
    (framesRaw : List F) (encode : ℕ → ℕ → List ℕ) (opt : CompOption)
    (isAnimated : Bool) : Option (ConvOutcome F) :=
  let steps := if opt.steps = 0 then 1 else opt.steps
  let size_max := if isAnimated then opt.size_max_vid else opt.size_max_img
  let result := check_if_compatible fmtOk resOk fpsOk durOk size_max inBytes
  if truthyBytes result = true then
    some { success := true, payload := some (result.getD []),
           size := (result.getD []).length,
           decodeCalls := 0, passes := 0, framesUsed := [] }
  else
    let step_current := if size_max = none then 0 else midStep 0 steps
    convertLoop encode framesRaw size_max (steps + 2)
      { step_lower := 0, step_upper := steps, step_current := step_current,
        result := none, passes := 0, framesUsed := [] }

theorem midStep_eq (lo up : ℕ) : midStep lo up = (lo + up + 1) / 2 := by
  unfold midStep rounding pyRoundHalfUp
  have hq : (0 : ℚ) ≤ ((lo : ℚ) + (up : ℚ)) / 2 := by positivity
  rw [if_pos hq]
  have harg : ((lo : ℚ) + (up : ℚ)) / 2 + 1 / 2 = ((lo + up + 1 : ℕ) : ℚ) / 2 := by
    push_cast
    ring
  rw [harg]
  have h1 : ⌊((lo + up + 1 : ℕ) : ℚ) / 2⌋ = (((lo + up + 1) / 2 : ℕ) : ℤ) := by
    rw [Int.floor_eq_iff]
    constructor
    · rw [le_div_iff (by norm_num : (0 : ℚ) < 2)]
      exact_mod_cast Nat.div_mul_le_self (lo + up + 1) 2
    · rw [div_lt_iff (by norm_num : (0 : ℚ) < 2)]
      exact_mod_cast (by omega : lo + up + 1 < ((lo + up + 1) / 2 + 1) * 2)
  rw [h1]
  exact Int.toNat_natCast _

theorem truthyN_pos {b : ℕ} (hb : 1 ≤ b) : truthyN (some b) = true := by
  simp [truthyN]
  omega

theorem loopExit_instr {F : Type} (st' : SearchSt F) (size : ℕ)
    (r : Option (List ℕ × ℕ × ℕ)) :
    (loopExit st' size r).decodeCalls = 1 ∧ (loopExit st' size r).passes = st'.passes
    ∧ (loopExit st' size r).framesUsed = st'.framesUsed := by
  rcases r with - | ⟨data, rsize, rstep⟩
  · exact ⟨rfl, rfl, rfl⟩
  · exact ⟨rfl, rfl, rfl⟩

theorem loopExit_passes {F : Type} (st' : SearchSt F) (size : ℕ)
    (r : Option (List ℕ × ℕ × ℕ)) : (loopExit st' size r).passes = st'.passes := by
  rcases r with - | ⟨data, rsize, rstep⟩
  · rfl
  · rfl

theorem loopExit_success_le {F : Type} (st' : SearchSt F) (size : ℕ)
    (r : Option (List ℕ × ℕ × ℕ)) (b : ℕ) (hr : ∀ x ∈ r, x.2.1 ≤ b)
    (hs : (loopExit st' size r).success = true) : (loopExit st' size r).size ≤ b := by
  rcases r with - | ⟨data, rsize, rstep⟩
  · cases hs
  · exact hr (data, rsize, rstep) rfl

theorem resultUpdate_le (b : ℕ) (hb : 1 ≤ b) (r : Option (List ℕ × ℕ × ℕ))
    (tmp : List ℕ) (step : ℕ) (hr : ∀ x ∈ r, x.2.1 ≤ b) :
    ∀ x ∈ resultUpdate (some b) r tmp step, x.2.1 ≤ b := by
  intro x hx
  unfold resultUpdate at hx
  by_cases hc : truthyN (some b) = false
    ∨ (tmp.length ≤ (some b : Option ℕ).getD 0 ∧ result_size r ≤ tmp.length)
  · rw [if_pos hc] at hx
    rcases hc with hc | hc
    · rw [truthyN_pos hb] at hc
      cases hc
    · simp only [Option.mem_def, Option.some.injEq] at hx
      subst hx
      simpa using hc.1
  · rw [if_neg hc] at hx
    exact hr x hx

theorem resultUpdate_changed (b : ℕ) (hb : 1 ≤ b) (r : Option (List ℕ × ℕ × ℕ))
    (tmp : List ℕ) (step : ℕ) (hne : resultUpdate (some b) r tmp step ≠ r) :
    resultUpdate (some b) r tmp step = some (tmp, tmp.length, step)
    ∧ tmp.length ≤ b ∧ result_size r ≤ tmp.length := by
  unfold resultUpdate at hne ⊢
  by_cases hc : truthyN (some b) = false
    ∨ (tmp.length ≤ (some b : Option ℕ).getD 0 ∧ result_size r ≤ tmp.length)
  · rcases hc with hc | hc
    · rw [truthyN_pos hb] at hc
      cases hc
    · refine ⟨if_pos (Or.inr hc), ?_, hc.2⟩
      simpa using hc.1
  · rw [if_neg hc] at hne
    exact absurd rfl hne

theorem convertLoop_success_le {F : Type} (encode : ℕ → ℕ → List ℕ)
    (framesRaw : List F) (b : ℕ) (hb : 1 ≤ b) :
    ∀ (fuel : ℕ) (st : SearchSt F), (∀ x ∈ st.result, x.2.1 ≤ b) →
      ∀ o ∈ convertLoop encode framesRaw (some b) fuel st,
        o.success = true → o.size ≤ b := by
  intro fuel
  induction fuel with
  | zero =>
    intro st hst o ho
    simp [convertLoop] at ho
  | succ n ih =>
    intro st hst o ho hsucc
    simp only [convertLoop] at ho
    have hupd := resultUpdate_le b hb st.result (encode st.passes st.step_current)
      st.step_current hst
    by_cases hbr : 1 < st.step_upper - st.step_lower ∧ truthyN (some b) = true
    · rw [if_pos hbr] at ho
      exact ih _ hupd o ho hsucc
    · rw [if_neg hbr] at ho
      simp only [Option.mem_def, Option.some.injEq] at ho
      subst ho
      exact loopExit_success_le _ _ _ b hupd hsucc

theorem convertLoop_frames {F : Type} (encode : ℕ → ℕ → List ℕ)
    (framesRaw : List F) (size_max : Option ℕ) :
    ∀ (fuel : ℕ) (st : SearchSt F), st.framesUsed.length = st.passes →
      (∀ fr ∈ st.framesUsed, fr = framesRaw) →
      ∀ o ∈ convertLoop encode framesRaw size_max fuel st,
        o.decodeCalls = 1 ∧ o.framesUsed.length = o.passes
        ∧ ∀ fr ∈ o.framesUsed, fr = framesRaw := by
  intro fuel
  induction fuel with
  | zero =>
    intro st h1 h2 o ho
    simp [convertLoop] at ho
  | succ n ih =>
    intro st h1 h2 o ho
    simp only [convertLoop] at ho
    have h1' : (st.framesUsed ++ [framesRaw]).length = st.passes + 1 := by
      simp [h1]
    have h2' : ∀ fr ∈ st.framesUsed ++ [framesRaw], fr = framesRaw := by
      intro fr hfr
      rcases List.mem_append.mp hfr with h | h
      · exact h2 fr h
      · simpa using h
    by_cases hbr : 1 < st.step_upper - st.step_lower ∧ truthyN size_max = true
    · rw [if_pos hbr] at ho
      exact ih _ h1' h2' o ho
    · rw [if_neg hbr] at ho
      simp only [Option.mem_def, Option.some.injEq] at ho
      subst ho
      obtain ⟨hd, hp, hf⟩ := loopExit_instr
        ({ st with
           result := resultUpdate size_max st.result (encode st.passes st.step_current) st.step_current
           passes := st.passes + 1
           framesUsed := st.framesUsed ++ [framesRaw] })
        (encode st.passes st.step_current).length
        (resultUpdate size_max st.result (encode st.passes st.step_current) st.step_current)
      refine ⟨hd, ?_, ?_⟩
      · rw [hf, hp]
        exact h1'
      · rw [hf]
        exact h2'

theorem convertLoop_term {F : Type} (encode : ℕ → ℕ → List ℕ)
    (framesRaw : List F) (b : ℕ) (hb : 1 ≤ b) :
    ∀ (n fuel : ℕ) (st : SearchSt F), st.step_upper - st.step_lower = n → 1 ≤ n →
      st.step_current = midStep st.step_lower st.step_upper → n + 1 ≤ fuel →
      ∃ o, convertLoop encode framesRaw (some b) fuel st = some o
        ∧ o.passes ≤ st.passes + Nat.clog 2 n + 1 := by
  intro n
  induction n using Nat.strong_induction_on with
  | _ n ih =>
    intro fuel st hn h1 hcur hfuel
    cases fuel with
    | zero => omega
    | succ f =>
      have htb : truthyN (some b) = true := truthyN_pos hb
      have hc2 : st.step_current = (st.step_lower + st.step_upper + 1) / 2 := by
        rw [hcur, midStep_eq]
      simp only [convertLoop]
      rw [hc2]
      by_cases hlt : 1 < st.step_upper - st.step_lower
      · rw [if_pos ⟨hlt, htb⟩]
        have hn2 : 2 ≤ n := by omega
        have hrec : Nat.clog 2 n = Nat.clog 2 ((n + 1) / 2) + 1 :=
          Nat.clog_of_two_le one_lt_two hn2
        have step : ∀ (lo up : ℕ) (r : Option (List ℕ × ℕ × ℕ))
            (fu : List (List F)) (p : ℕ), 1 ≤ up - lo → up - lo + 1 ≤ f →
            up - lo ≤ (n + 1) / 2 →
            ∃ o, convertLoop encode framesRaw (some b) f
                { step_lower := lo, step_upper := up, step_current := midStep lo up,
                  result := r, passes := p, framesUsed := fu } = some o
              ∧ o.passes ≤ p + Nat.clog 2 ((n + 1) / 2) + 1 := by
          intro lo up r fu p h1' hf' hle
          obtain ⟨o, ho, hop⟩ := ih (up - lo) (by omega) f
            { step_lower := lo, step_upper := up, step_current := midStep lo up,
              result := r, passes := p, framesUsed := fu } rfl h1' rfl hf'
          have hmono := Nat.clog_mono_right 2 hle
          exact ⟨o, ho, by simp only at hop; omega⟩
        by_cases hsz : (encode st.passes ((st.step_lower + st.step_upper + 1) / 2)).length
            ≤ (some b : Option ℕ).getD 0
        · rw [if_pos hsz, if_pos hsz]
          obtain ⟨o, ho, hop⟩ := step st.step_lower ((st.step_lower + st.step_upper + 1) / 2)
            (resultUpdate (some b) st.result
              (encode st.passes ((st.step_lower + st.step_upper + 1) / 2))
              ((st.step_lower + st.step_upper + 1) / 2))
            (st.framesUsed ++ [framesRaw]) (st.passes + 1)
            (by omega) (by omega) (by omega)
          exact ⟨o, ho, by omega⟩
        · rw [if_neg hsz, if_neg hsz]
          obtain ⟨o, ho, hop⟩ := step ((st.step_lower + st.step_upper + 1) / 2) st.step_upper
            (resultUpdate (some b) st.result
              (encode st.passes ((st.step_lower + st.step_upper + 1) / 2))
              ((st.step_lower + st.step_upper + 1) / 2))
            (st.framesUsed ++ [framesRaw]) (st.passes + 1)
            (by omega) (by omega) (by omega)
          exact ⟨o, ho, by omega⟩
      · rw [if_neg (fun hand => hlt hand.1)]
        refine ⟨_, rfl, ?_⟩
        rw [loopExit_passes]
        show st.passes + 1 ≤ st.passes + Nat.clog 2 n + 1
        omega

theorem check_if_compatible_some (fmtOk resOk fpsOk durOk : Bool)
    (sm : Option ℕ) (inBytes data : List ℕ)
    (h : check_if_compatible fmtOk resOk fpsOk durOk sm inBytes = some data) :
    data = inBytes ∧ gateHit fmtOk resOk fpsOk durOk sm inBytes = true := by
  unfold check_if_compatible at h
  by_cases hc : gateHit fmtOk resOk fpsOk durOk sm inBytes = true
  · rw [if_pos hc] at h
    cases h
    exact ⟨rfl, hc⟩
  · rw [if_neg hc] at h
    cases h

theorem sizeCheck_le {b : ℕ} {inBytes : List ℕ}
    (h : sizeCheck (some b) inBytes = true) : inBytes.length ≤ b := by
  simpa [sizeCheck] using h

/-- Claim C1 (amended): with a positive size budget configured, a `success`
outcome never reports a size above the budget (on the gate path because the
gate's size check already bounds the input, on the search path by the
stored-best invariant); the stored best result is replaced only by a
still-compliant candidate whose size is at least the current best size
(the code uses `>=`, so an equal-size candidate can also replace it); and
the best-result update preserves `size ≤ budget`.  A zero budget is falsy
in Python and disables the budget logic entirely (see the counterexample). -/
theorem C1_budget_invariant {F : Type} (fmtOk resOk fpsOk durOk : Bool)
    (inBytes : List ℕ) (framesRaw : List F) (encode : ℕ → ℕ → List ℕ)
    (opt : CompOption) (isAnimated : Bool) (b : ℕ) (hb : 1 ≤ b)
    (hsel : (if isAnimated then opt.size_max_vid else opt.size_max_img) = some b) :
    (∀ o ∈ _convert fmtOk resOk fpsOk durOk inBytes framesRaw encode opt isAnimated,
        o.success = true → o.size ≤ b)
    ∧ (∀ (r : Option (List ℕ × ℕ × ℕ)) (tmp : List ℕ) (step : ℕ),
        resultUpdate (some b) r tmp step ≠ r →
          resultUpdate (some b) r tmp step = some (tmp, tmp.length, step)
          ∧ tmp.length ≤ b ∧ result_size r ≤ tmp.length)
    ∧ (∀ (r : Option (List ℕ × ℕ × ℕ)) (tmp : List ℕ) (step : ℕ),
        (∀ x ∈ r, x.2.1 ≤ b) → ∀ x ∈ resultUpdate (some b) r tmp step, x.2.1 ≤ b) := by
  refine ⟨?_, fun r tmp step => resultUpdate_changed b hb r tmp step,
    fun r tmp step hr => resultUpdate_le b hb r tmp step hr⟩
  intro o ho hsucc
  simp only [_convert, hsel] at ho
  rcases hgate : check_if_compatible fmtOk resOk fpsOk durOk (some b) inBytes
    with - | data
  · rw [hgate, if_neg (by decide)] at ho
    exact convertLoop_success_le encode framesRaw b hb _ _
      (by intro x hx; simp at hx) o ho hsucc
  · rw [hgate] at ho
    cases hdata : data.isEmpty
    · rw [if_pos (by simp [truthyBytes, hdata])] at ho
      replace ho : some ((⟨true, some data, data.length, 0, 0, []⟩ : ConvOutcome F)) = some o := ho
      simp only [Option.some.injEq] at ho
      subst ho
      obtain ⟨hdataEq, hg⟩ := check_if_compatible_some _ _ _ _ _ _ _ hgate
      have hs : sizeCheck (some b) inBytes = true := by
        unfold gateHit at hg
        simp only [Bool.and_eq_true] at hg
        exact hg.1.2
      show data.length ≤ b
      rw [hdataEq]
      exact sizeCheck_le hs
    · rw [if_neg (by simp [truthyBytes, hdata])] at ho
      exact convertLoop_success_le encode framesRaw b hb _ _
        (by intro x hx; simp at hx) o ho hsucc

/-- Concrete options: no budget at all, `steps = 1`. -/
def optGate : CompOption :=
  ⟨none, none, none, none, none, none, none, none, none, none,
   fun x => x, fun x => x, fun x => x, fun x => x, 1, none, none, none, none⟩

/-- Concrete options: a configured video budget of zero bytes. -/
def optZero : CompOption :=
  ⟨none, none, none, none, none, none, none, none, none, none,
   fun x => x, fun x => x, fun x => x, fun x => x, 1, none, none, none, some 0⟩

/-- Concrete options: video budget 10 bytes, `steps = 1`. -/
def optTen : CompOption :=
  ⟨none, none, none, none, none, none, none, none, none, none,
   fun x => x, fun x => x, fun x => x, fun x => x, 1, none, none, none, some 10⟩

/-- Concrete options: video budget 100 bytes, `steps = 3`. -/
def optThree : CompOption :=
  ⟨none, none, none, none, none, none, none, none, none, none,
   fun x => x, fun x => x, fun x => x, fun x => x, 3, none, none, none, some 100⟩

/-- Claim C1 is false in two places.  (a) The best-result update uses
`self.size >= self.result_size`, so a stored best of size 3 (step 0) is
replaced by a *different* candidate of the *same* size 3 (step 2) — not
only by one of strictly larger size.  (b) A configured budget of 0 bytes is
falsy in Python (`if not self.size_max`), so the search accepts every
candidate and reports success with size 7 > 0 even though a budget is set. -/
theorem C1_counterexample :
    resultUpdate (some 5) (some ([1, 1, 1], 3, 0)) [0, 0, 0] 2 = some ([0, 0, 0], 3, 2)
    ∧ resultUpdate (some 5) (some ([1, 1, 1], 3, 0)) [0, 0, 0] 2 ≠ some ([1, 1, 1], 3, 0)
    ∧ (_convert (F := ℕ) false true true true [9] [3] (fun _ _ => List.replicate 7 0)
        optZero true).map (fun o => (o.success, o.size)) = some (true, 7)
    ∧ optZero.size_max_vid = some 0 ∧ ¬ (7 ≤ 0) := by
  refine ⟨by decide, by decide, ?_, rfl, by decide⟩
  simp [_convert, optZero, check_if_compatible, gateHit, sizeCheck, convertLoop,
    resultUpdate, result_size, truthyN, truthyBytes, midStep_eq, loopExit]

/-- Witness for `C1_budget_invariant` at budget 10: the update rule stores
a compliant candidate of size 5. -/
theorem C1_budget_invariant_witness :
    resultUpdate (some 10) none (List.replicate 5 0) 1 = some (List.replicate 5 0, 5, 1)
    ∧ (List.replicate 5 0).length ≤ 10 ∧ result_size none ≤ (List.replicate 5 0).length :=
  (C1_budget_invariant (F := ℕ) false true true true [9] [3]
      (fun _ _ => List.replicate 5 0) optTen true 10 (by norm_num) rfl).2.1
    none (List.replicate 5 0) 1 (by decide)

/-- Claim C2 (amended): the compatibility gate returns the input bytes
unchanged with the decoder never invoked only when the gated result is
*truthy* — line 173's `if result:` treats empty bytes as falsy, so an empty
input that passes all five checks still falls through to `frames_import` and
the search loop.  On a gate miss (or an empty input) the decoder runs exactly
once before the loop and every search pass reuses that one decoded frame
list. -/
theorem C2_gate_and_decode {F : Type} (fmtOk resOk fpsOk durOk : Bool)
    (inBytes : List ℕ) (framesRaw : List F) (encode : ℕ → ℕ → List ℕ)
    (opt : CompOption) (isAnimated : Bool) :
    (check_if_compatible fmtOk resOk fpsOk durOk
        (if isAnimated then opt.size_max_vid else opt.size_max_img) inBytes = some inBytes
      ↔ gateHit fmtOk resOk fpsOk durOk
          (if isAnimated then opt.size_max_vid else opt.size_max_img) inBytes = true)
    ∧ (gateHit fmtOk resOk fpsOk durOk
          (if isAnimated then opt.size_max_vid else opt.size_max_img) inBytes = true →
        inBytes ≠ [] →
        _convert fmtOk resOk fpsOk durOk inBytes framesRaw encode opt isAnimated
          = some { success := true, payload := some inBytes, size := inBytes.length,
                   decodeCalls := 0, passes := 0, framesUsed := [] })
    ∧ (gateHit fmtOk resOk fpsOk durOk
          (if isAnimated then opt.size_max_vid else opt.size_max_img) inBytes = false →
        ∀ o ∈ _convert fmtOk resOk fpsOk durOk inBytes framesRaw encode opt isAnimated,
          o.decodeCalls = 1 ∧ o.framesUsed.length = o.passes
          ∧ ∀ fr ∈ o.framesUsed, fr = framesRaw)
    ∧ (inBytes = [] →
        ∀ o ∈ _convert fmtOk resOk fpsOk durOk inBytes framesRaw encode opt isAnimated,
          o.decodeCalls = 1 ∧ o.framesUsed.length = o.passes
          ∧ ∀ fr ∈ o.framesUsed, fr = framesRaw) := by
  refine ⟨?_, ?_, ?_, ?_⟩
  · unfold check_if_compatible
    by_cases hc : gateHit fmtOk resOk fpsOk durOk
        (if isAnimated then opt.size_max_vid else opt.size_max_img) inBytes = true
    · rw [if_pos hc]
      simp [hc]
    · rw [if_neg hc]
      simp only [Bool.not_eq_true] at hc
      simp [hc]
  · intro hg hne
    have hcheck : check_if_compatible fmtOk resOk fpsOk durOk
        (if isAnimated then opt.size_max_vid else opt.size_max_img) inBytes = some inBytes := by
      unfold check_if_compatible
      rw [if_pos hg]
    simp only [_convert, hcheck]
    rw [if_pos (by
      cases inBytes with
      | nil => exact absurd rfl hne
      | cons x xs => rfl)]
    rfl
  · intro hg o ho
    have hcheck : check_if_compatible fmtOk resOk fpsOk durOk
        (if isAnimated then opt.size_max_vid else opt.size_max_img) inBytes = none := by
      unfold check_if_compatible
      rw [if_neg (by simp [hg])]
    simp only [_convert, hcheck] at ho
    rw [if_neg (by decide)] at ho
    exact convertLoop_frames encode framesRaw _ _ _ rfl (by intro fr hfr; simp at hfr) o ho
  · intro he o ho
    subst he
    simp only [_convert] at ho
    rcases hgate : check_if_compatible fmtOk resOk fpsOk durOk
        (if isAnimated then opt.size_max_vid else opt.size_max_img) [] with - | d
    · rw [hgate, if_neg (by decide)] at ho
      exact convertLoop_frames encode framesRaw _ _ _ rfl (by intro fr hfr; simp at hfr) o ho
    · obtain ⟨hd, -⟩ := check_if_compatible_some _ _ _ _ _ _ _ hgate
      subst hd
      rw [hgate, if_neg (by decide)] at ho
      exact convertLoop_frames encode framesRaw _ _ _ rfl (by intro fr hfr; simp at hfr) o ho

/-- Claim C2 is false as stated: an *empty* input that passes every gate
check is falsy for line 173's `if result:`, so the gate result is discarded
and the conversion still decodes once and runs the search loop instead of
returning the input unchanged with zero decode calls. -/
theorem C2_counterexample :
    gateHit true true true true none ([] : List ℕ) = true
    ∧ check_if_compatible true true true true none ([] : List ℕ) = some []
    ∧ (_convert (F := ℕ) true true true true [] [3] (fun _ _ => [7]) optGate false).map
        (fun o => (o.decodeCalls, o.payload)) = some (1, some [7])
    ∧ (1 : ℕ) ≠ 0 := by
  refine ⟨by decide, by decide, by decide, by decide⟩

/-- Witness for `C2_gate_and_decode`: a truthy gate hit on `[9]` copies the
bytes with zero decode calls; a gate miss (failing format check) and an empty
gate-passing input each decode exactly once, the single recorded pass reusing
the decoded frames `[3]`. -/
theorem C2_gate_and_decode_witness :
    _convert (F := ℕ) true true true true [9] [3] (fun _ _ => [7]) optGate false
      = some ⟨true, some [9], 1, 0, 0, []⟩
    ∧ (⟨true, some [7], 1, 1, 1, [[3]]⟩ : ConvOutcome ℕ).decodeCalls = 1
    ∧ ([3] : List ℕ) = [3]
    ∧ (⟨true, some [7], 1, 1, 1, [[3]]⟩ : ConvOutcome ℕ).framesUsed.length
        = (⟨true, some [7], 1, 1, 1, [[3]]⟩ : ConvOutcome ℕ).passes := by
  have h := C2_gate_and_decode (F := ℕ) true true true true [9] [3] (fun _ _ => [7])
    optGate false
  have h2 := C2_gate_and_decode (F := ℕ) false true true true [9] [3] (fun _ _ => [7])
    optGate false
  have h3 := C2_gate_and_decode (F := ℕ) true true true true [] [3] (fun _ _ => [7])
    optGate false
  refine ⟨h.2.1 (by decide) (by decide), ?_, ?_, ?_⟩
  · exact ((h2.2.2.1 (by decide)) ⟨true, some [7], 1, 1, 1, [[3]]⟩ (by decide)).1
  · exact ((h2.2.2.1 (by decide)) ⟨true, some [7], 1, 1, 1, [[3]]⟩ (by decide)).2.2
      [3] (by decide)
  · exact ((h3.2.2.2 rfl) ⟨true, some [7], 1, 1, 1, [[3]]⟩ (by decide)).2.1

/-- Claim C5 (amended): with a positive budget the bisection always
terminates (for any `steps`, coerced to at least 1) and performs at most
`ceil(log2(steps)) + 1` encode-and-measure passes — one more than the
claimed `ceil(log2(steps+1))`, which is exceeded e.g. at `steps = 3`. -/
theorem C5_search_termination {F : Type} (fmtOk resOk fpsOk durOk : Bool)
    (inBytes : List ℕ) (framesRaw : List F) (encode : ℕ → ℕ → List ℕ)
    (opt : CompOption) (isAnimated : Bool) (b : ℕ)
    (hsteps : 1 ≤ opt.steps) (hb : 1 ≤ b)
    (hsel : (if isAnimated then opt.size_max_vid else opt.size_max_img) = some b) :
    ∃ o, _convert fmtOk resOk fpsOk durOk inBytes framesRaw encode opt isAnimated = some o
      ∧ o.passes ≤ Nat.clog 2 opt.steps + 1 := by
  simp only [_convert, hsel]
  have hco : (if opt.steps = 0 then 1 else opt.steps) = opt.steps := by
    rw [if_neg (by omega)]
  rw [hco]
  rcases hgate : check_if_compatible fmtOk resOk fpsOk durOk (some b) inBytes
    with - | data
  · rw [if_neg (by decide), if_neg (by simp)]
    obtain ⟨o, ho, hop⟩ := convertLoop_term encode framesRaw b hb opt.steps
      (opt.steps + 2)
      { step_lower := 0, step_upper := opt.steps, step_current := midStep 0 opt.steps,
        result := none, passes := 0, framesUsed := [] }
      (by simp) hsteps rfl (by omega)
    exact ⟨o, ho, by simpa using hop⟩
  · cases hdata : data.isEmpty
    · rw [if_pos (by simp [truthyBytes, hdata])]
      exact ⟨_, rfl, by simp⟩
    · rw [if_neg (by simp [truthyBytes, hdata]), if_neg (by simp)]
      obtain ⟨o, ho, hop⟩ := convertLoop_term encode framesRaw b hb opt.steps
        (opt.steps + 2)
        { step_lower := 0, step_upper := opt.steps, step_current := midStep 0 opt.steps,
          result := none, passes := 0, framesUsed := [] }
        (by simp) hsteps rfl (by omega)
      exact ⟨o, ho, by simpa using hop⟩

/-- Claim C5's iteration bound is false as stated: with `steps = 3` and a
budget of 100 every probe fits the budget, the probed steps are 2, 1, 1 and
the loop performs 3 encode-and-measure passes, exceeding
`ceil(log2(steps+1)) = ceil(log2(4)) = 2`. -/
theorem C5_counterexample :
    (_convert (F := ℕ) false true true true [9] [3] (fun _ _ => List.replicate 50 0)
        optThree true).map (fun o => o.passes) = some 3
    ∧ Nat.clog 2 (optThree.steps + 1) = 2 ∧ ¬ (3 ≤ 2) := by
  refine ⟨?_, ?_, by decide⟩
  · simp [_convert, optThree, check_if_compatible, gateHit, sizeCheck, convertLoop,
      resultUpdate, result_size, truthyN, truthyBytes, midStep_eq, loopExit]
  · show Nat.clog 2 4 = 2
    rw [Nat.clog_of_two_le one_lt_two (by norm_num)]
    norm_num
    rw [Nat.clog_of_two_le one_lt_two (by norm_num)]
    norm_num

/-- Witness for `C5_search_termination` at `steps = 3`, budget 100. -/
theorem C5_search_termination_witness :
    (_convert (F := ℕ) false true true true [9] [3] (fun _ _ => List.replicate 50 0)
      optThree true).isSome = true := by
  obtain ⟨o, ho, -⟩ := C5_search_termination (F := ℕ) false true true true [9] [3]
    (fun _ _ => List.replicate 50 0) optThree true 100 (by decide) (by norm_num) rfl
  rw [ho]
  rfl

/-- The padding `while` loop closing `frames_drop` (lines 617-621): append
`frames_in[-1]` while the output is empty or (under a truthy
`frames_out_min`) shorter than it.  `last?` stands for
`pyIndex frames_in (-1)`; appending from an empty source list is an
`IndexError`, modelled as `none`. -/
def padLoop {α : Type} (fminO : Option ℤ) (last? : Option α) (out : List α) :
    Option (List α) :=
  if h : out.length = 0 ∨ (truthyZ fminO = true ∧ (out.length : ℤ) < fminO.getD 0) then
    match last? with
    | none => none
    | some a => padLoop fminO last? (out ++ [a])
  else some out
termination_by max 1 (fminO.getD 0).toNat - out.length
decreasing_by
  rcases h with h | ⟨-, h⟩ <;> simp <;> omega

/-- The `while True` frame-selection loop of `frames_drop` (lines 607-621):
advance the float accumulator by `frame_increment`, round half-up to pick a
source index, and append that frame while the index is in range and the
output has not reached a truthy `frames_out_max`; otherwise pad and return.
The loop runs on fuel; `none` models an `IndexError` or non-termination. -/
def dropLoop {α : Type} (framesIn : List α) (frame_increment : ℚ)
    (fminO fmaxO : Option ℤ) : ℕ → ℚ → List α → Option (List α)
  | 0, _, _ => none
  | fuel + 1, acc, out =>
    let acc' := acc + frame_increment
    let idx : ℤ := rounding acc'
    if idx ≤ (framesIn.length : ℤ) - 1
        ∧ ¬(truthyZ fmaxO = true ∧ (out.length : ℤ) = fmaxO.getD 0) then
      match pyIndex framesIn idx with
      | none => none
      | some fr => dropLoop framesIn frame_increment fminO fmaxO fuel acc' (out ++ [fr])
    else
      padLoop fminO (pyIndex framesIn (-1)) out

/-- The local `speed_ratio` of `frames_drop` (lines 584-595): how much to
speed up / slow down, driven by the duration bounds (Python truthiness:
`None` or `0` duration bounds are ignored). -/
def speedFactor (codec_duration : ℚ) (duration_min duration_max : Option ℕ) : ℚ :=
  if truthyN duration_min = true ∧ codec_duration < (duration_min.getD 0 : ℚ) then
    codec_duration / (duration_min.getD 0 : ℚ)
  else if truthyN duration_max = true ∧ (duration_max.getD 0 : ℚ) < codec_duration then
    codec_duration / (duration_max.getD 0 : ℚ)
  else 1

/-- The local `frame_increment` of `frames_drop` (line 598):
`fps_ratio * speed_ratio` where `fps_ratio = codec_fps / fps`. -/
def frameStep (codec_fps fps codec_duration : ℚ)
    (duration_min duration_max : Option ℕ) : ℚ :=
  codec_fps / fps * speedFactor codec_duration duration_min duration_max

/-- The local `frames_out_min` of `frames_drop` (lines 600-603):
`ceil(fps * duration_min / 1000)` when `duration_min` is truthy. -/
def framesOutMin (fps : ℚ) (duration_min : Option ℕ) : Option ℤ :=
  if truthyN duration_min = true then some ⌈fps * (duration_min.getD 0 : ℚ) / 1000⌉
  else none

/-- The local `frames_out_max` of `frames_drop` (lines 601-605):
`floor(fps * duration_max / 1000)` when `duration_max` is truthy. -/
def framesOutMax (fps : ℚ) (duration_max : Option ℕ) : Option ℤ :=
  if truthyN duration_max = true then some ⌊fps * (duration_max.getD 0 : ℚ) / 1000⌋
  else none

/-- Fuel budget handed to `dropLoop`: enough for every run of the Python
loop that exits (the pass count is bounded by `ceil((len+1)/increment)`
when the increment is positive and by the `frames_out_max` cap otherwise). -/
def dropFuel (len : ℕ) (frame_increment : ℚ) (fmaxO : Option ℤ) : ℕ :=
  (⌈((len : ℚ) + 1) / frame_increment⌉).toNat + (fmaxO.getD 0).toNat + len + 2

/-- `frames_drop` (lines 569-621).  Inputs that the Python method reads from
`self`: the probed `codec_info_orig.is_animated`, `codec_info_orig.fps`,
`codec_info_orig.duration` (`CodecInfo` lives outside the provided sources,
so they are plain input values here), the option durations (ms), the
per-pass target `self.fps`, and the length of the *previous* pass's
`self.frames_processed` (the guard reads `len(self.frames_processed)`,
which is the leftover list from the previous iteration, not `frames_in`).
The fuel handed to `dropLoop` is large enough for every terminating run;
exhaustion (`none`) occurs exactly when the Python loop cannot exit. -/
def frames_drop {α : Type} (is_animated : Bool) (codec_fps codec_duration : ℚ)
    (duration_min duration_max : Option ℕ) (fps : ℚ) (processedLen : ℕ)
    (frames_in : List α) : Option (List α) :=
  if is_animated = false ∨ fps = 0 ∨ processedLen = 1 then
    (pyIndex frames_in 0).map (fun a => [a])
  else
    dropLoop frames_in (frameStep codec_fps fps codec_duration duration_min duration_max)
      (framesOutMin fps duration_min) (framesOutMax fps duration_max)
      (dropFuel frames_in.length
        (frameStep codec_fps fps codec_duration duration_min duration_max)
        (framesOutMax fps duration_max))
      0 []

theorem rounding_nonneg {x : ℚ} (hx : 0 ≤ x) : 0 ≤ rounding x := by
  unfold rounding pyRoundHalfUp
  rw [if_pos hx]
  exact Int.floor_nonneg.mpr (by linarith)

theorem rounding_gt {x : ℚ} (hx : 0 ≤ x) : x - 1 / 2 < (rounding x : ℚ) := by
  unfold rounding pyRoundHalfUp
  rw [if_pos hx]
  have := Int.sub_one_lt_floor (x + 1 / 2)
  push_cast
  linarith

theorem pyIndex_some {α : Type} (l : List α) (i : ℤ) (h0 : 0 ≤ i)
    (h1 : i ≤ (l.length : ℤ) - 1) : ∃ a, pyIndex l i = some a := by
  unfold pyIndex
  rw [if_pos h0]
  simp only [if_pos h0]
  have hlt : i.toNat < l.length := by omega
  exact ⟨l[i.toNat], List.getElem?_eq_getElem hlt⟩

theorem pyIndex_neg_one {α : Type} (l : List α) (hne : l ≠ []) :
    ∃ a, pyIndex l (-1) = some a := by
  unfold pyIndex
  have hlen : 1 ≤ l.length := by
    cases l with
    | nil => exact absurd rfl hne
    | cons x xs => simp
  have hneg : ¬ (0 : ℤ) ≤ -1 := by omega
  simp only [if_neg hneg]
  rw [if_pos (by omega : (0 : ℤ) ≤ (l.length : ℤ) + -1)]
  have hlt : ((l.length : ℤ) + -1).toNat < l.length := by omega
  exact ⟨l[((l.length : ℤ) + -1).toNat], List.getElem?_eq_getElem hlt⟩

theorem pyIndex_mem {α : Type} (l : List α) (i : ℤ) (a : α)
    (h : pyIndex l i = some a) : a ∈ l := by
  simp only [pyIndex] at h
  by_cases h0 : (0 : ℤ) ≤ (if 0 ≤ i then i else (l.length : ℤ) + i)
  · rw [if_pos h0] at h
    obtain ⟨hlt, rfl⟩ := List.getElem?_eq_some.mp h
    exact List.getElem_mem _
  · rw [if_neg h0] at h
    cases h

theorem pyIndex_neg_one_getLast {α : Type} (l : List α) (hne : l ≠ []) :
    pyIndex l (-1) = some (l.getLast hne) := by
  have hlen : 0 < l.length := List.length_pos.mpr hne
  simp only [pyIndex]
  have hneg : ¬ (0 : ℤ) ≤ -1 := by omega
  simp only [if_neg hneg]
  rw [if_pos (by omega : (0 : ℤ) ≤ (l.length : ℤ) + -1)]
  have hidx : ((l.length : ℤ) + -1).toNat = l.length - 1 := by omega
  rw [hidx, List.getElem?_eq_getElem (by omega)]
  exact congrArg some (List.getLast_eq_getElem l hne).symm

theorem truthyZ_false {o : Option ℤ} (h : truthyZ o = false) : o.getD 0 = 0 := by
  simpa [truthyZ] using h

theorem padLoop_none_inv {α : Type} (fminO : Option ℤ) (out l : List α)
    (hl : padLoop fminO none out = some l) :
    l = out ∧ out.length ≠ 0
    ∧ (truthyZ fminO = true → fminO.getD 0 ≤ (out.length : ℤ)) := by
  by_cases hguard : out.length = 0
      ∨ (truthyZ fminO = true ∧ (out.length : ℤ) < fminO.getD 0)
  · rw [padLoop, dif_pos hguard] at hl
    cases hl
  · rw [padLoop, dif_neg hguard] at hl
    cases hl
    push_neg at hguard
    exact ⟨rfl, hguard.1, fun ht => hguard.2 ht⟩

theorem padLoop_ex {α : Type} (fminO : Option ℤ) (a : α) :
    ∀ (k : ℕ) (out : List α), max 1 (fminO.getD 0).toNat - out.length ≤ k →
      ∃ l, padLoop fminO (some a) out = some l
        ∧ out.length ≤ l.length ∧ l.length ≠ 0
        ∧ (truthyZ fminO = true → fminO.getD 0 ≤ (l.length : ℤ))
        ∧ l.length ≤ max (max 1 (fminO.getD 0).toNat) out.length := by
  intro k
  induction k with
  | zero =>
    intro out hk
    have hguard : ¬(out.length = 0
        ∨ (truthyZ fminO = true ∧ (out.length : ℤ) < fminO.getD 0)) := by
      rintro (h | ⟨-, h⟩) <;> omega
    have heval : padLoop fminO (some a) out = some out := by
      rw [padLoop, dif_neg hguard]
    refine ⟨out, heval, le_rfl, by omega, fun ht => by omega, le_max_right _ _⟩
  | succ n ih =>
    intro out hk
    by_cases hguard : out.length = 0
        ∨ (truthyZ fminO = true ∧ (out.length : ℤ) < fminO.getD 0)
    · have hlt : out.length < max 1 (fminO.getD 0).toNat := by
        rcases hguard with h | ⟨-, h⟩ <;> omega
      obtain ⟨l, hl, h1, h2, h3, h4⟩ := ih (out ++ [a]) (by simp; omega)
      have heval : padLoop fminO (some a) out = some l := by
        rw [padLoop, dif_pos hguard]
        exact hl
      refine ⟨l, heval, ?_, h2, h3, ?_⟩
      · simp at h1
        omega
      · simp at h4
        omega
    · have heval : padLoop fminO (some a) out = some out := by
        rw [padLoop, dif_neg hguard]
      push_neg at hguard
      exact ⟨out, heval, le_rfl, hguard.1, fun ht => hguard.2 ht,
        le_max_right _ _⟩

theorem padLoop_replicate {α : Type} (fminO : Option ℤ) (a : α) :
    ∀ (k : ℕ) (out : List α), max 1 (fminO.getD 0).toNat - out.length ≤ k →
      ∃ m, padLoop fminO (some a) out = some (out ++ List.replicate m a) := by
  intro k
  induction k with
  | zero =>
    intro out hk
    have hguard : ¬(out.length = 0
        ∨ (truthyZ fminO = true ∧ (out.length : ℤ) < fminO.getD 0)) := by
      rintro (h | ⟨-, h⟩) <;> omega
    exact ⟨0, by rw [padLoop, dif_neg hguard]; simp⟩
  | succ n ih =>
    intro out hk
    by_cases hguard : out.length = 0
        ∨ (truthyZ fminO = true ∧ (out.length : ℤ) < fminO.getD 0)
    · obtain ⟨m, hm⟩ := ih (out ++ [a])
        (by simp only [List.length_append, List.length_singleton]
            rcases hguard with h | ⟨-, h⟩ <;> omega)
      refine ⟨m + 1, ?_⟩
      rw [padLoop, dif_pos hguard]
      show padLoop fminO (some a) (out ++ [a]) = some (out ++ List.replicate (m + 1) a)
      rw [hm]
      simp [List.append_assoc, List.replicate_succ]
    · exact ⟨0, by rw [padLoop, dif_neg hguard]; simp⟩

theorem dropLoop_inv {α : Type} (framesIn : List α) (inc : ℚ)
    (fminO fmaxO : Option ℤ) :
    ∀ (fuel : ℕ) (acc : ℚ) (out l : List α),
      dropLoop framesIn inc fminO fmaxO fuel acc out = some l →
      out.length ≤ l.length ∧ l.length ≠ 0
      ∧ (truthyZ fminO = true → fminO.getD 0 ≤ (l.length : ℤ))
      ∧ (truthyZ fmaxO = true →
          (truthyZ fminO = true → fminO.getD 0 ≤ fmaxO.getD 0) →
          1 ≤ fmaxO.getD 0 → out.length ≤ (fmaxO.getD 0).toNat →
          l.length ≤ (fmaxO.getD 0).toNat) := by
  intro fuel
  induction fuel with
  | zero =>
    intro acc out l h
    cases h
  | succ n ih =>
    intro acc out l h
    rw [dropLoop] at h
    by_cases hbr : rounding (acc + inc) ≤ (framesIn.length : ℤ) - 1
        ∧ ¬(truthyZ fmaxO = true ∧ (out.length : ℤ) = fmaxO.getD 0)
    · rw [if_pos hbr] at h
      rcases hpi : pyIndex framesIn (rounding (acc + inc)) with - | fr
      · rw [hpi] at h
        cases h
      · rw [hpi] at h
        obtain ⟨h1, h2, h3, h4⟩ := ih (acc + inc) (out ++ [fr]) l h
        simp only [List.length_append, List.length_singleton] at h1
        refine ⟨by omega, h2, h3, ?_⟩
        intro htm hmm hM hout
        have hne : (out.length : ℤ) ≠ fmaxO.getD 0 := fun he => hbr.2 ⟨htm, he⟩
        apply h4 htm hmm hM
        simp only [List.length_append, List.length_singleton]
        omega
    · rw [if_neg hbr] at h
      rcases hlast : pyIndex framesIn (-1) with - | a
      · rw [hlast] at h
        obtain ⟨rfl, hz, hmin⟩ := padLoop_none_inv fminO out l h
        refine ⟨le_rfl, hz, hmin, fun _ _ _ hout => hout⟩
      · rw [hlast] at h
        obtain ⟨l', hl', h1, h2, h3, h4⟩ := padLoop_ex fminO a
          (max 1 (fminO.getD 0).toNat - out.length) out le_rfl
        rw [hl'] at h
        cases h
        refine ⟨h1, h2, h3, ?_⟩
        intro htm hmm hM hout
        by_cases htf : truthyZ fminO = true
        · have := hmm htf
          omega
        · have h0 : fminO.getD 0 = 0 := truthyZ_false (by
            cases hh : truthyZ fminO
            · rfl
            · exact absurd hh htf)
          omega

theorem dropLoop_decomp {α : Type} (framesIn : List α) (inc : ℚ)
    (fminO fmaxO : Option ℤ) (hne : framesIn ≠ []) :
    ∀ (fuel : ℕ) (acc : ℚ) (out l : List α),
      dropLoop framesIn inc fminO fmaxO fuel acc out = some l →
      ∃ sel k, out <+: sel ∧ (∀ x ∈ sel, x ∈ out ∨ x ∈ framesIn)
        ∧ l = sel ++ List.replicate k (framesIn.getLast hne) := by
  intro fuel
  induction fuel with
  | zero =>
    intro acc out l h
    cases h
  | succ n ih =>
    intro acc out l h
    rw [dropLoop] at h
    by_cases hbr : rounding (acc + inc) ≤ (framesIn.length : ℤ) - 1
        ∧ ¬(truthyZ fmaxO = true ∧ (out.length : ℤ) = fmaxO.getD 0)
    · rw [if_pos hbr] at h
      rcases hpi : pyIndex framesIn (rounding (acc + inc)) with - | fr
      · rw [hpi] at h
        cases h
      · rw [hpi] at h
        obtain ⟨sel, k, hpre, hmem, heq⟩ := ih (acc + inc) (out ++ [fr]) l h
        refine ⟨sel, k, ?_, ?_, heq⟩
        · exact List.IsPrefix.trans (List.prefix_append out [fr]) hpre
        · intro x hx
          rcases hmem x hx with hx' | hx'
          · rcases List.mem_append.mp hx' with h1 | h1
            · exact Or.inl h1
            · have hfr : fr ∈ framesIn := pyIndex_mem framesIn _ fr hpi
              rw [List.mem_singleton] at h1
              subst h1
              exact Or.inr hfr
          · exact Or.inr hx'
    · rw [if_neg hbr] at h
      rw [pyIndex_neg_one_getLast framesIn hne] at h
      obtain ⟨m, hm⟩ := padLoop_replicate fminO (framesIn.getLast hne)
        (max 1 (fminO.getD 0).toNat - out.length) out le_rfl
      rw [hm] at h
      cases h
      exact ⟨out, m, List.prefix_rfl, fun x hx => Or.inl hx, rfl⟩

theorem dropLoop_term_cap {α : Type} (framesIn : List α) (inc : ℚ)
    (fminO fmaxO : Option ℤ) (hne : framesIn ≠ []) (hinc : 0 ≤ inc)
    (htm : truthyZ fmaxO = true) (hM : 1 ≤ fmaxO.getD 0) :
    ∀ (fuel : ℕ) (acc : ℚ) (out : List α), 0 ≤ acc →
      out.length ≤ (fmaxO.getD 0).toNat →
      (fmaxO.getD 0).toNat + 1 - out.length ≤ fuel →
      (dropLoop framesIn inc fminO fmaxO fuel acc out).isSome = true := by
  have hlen : 1 ≤ framesIn.length := by
    cases framesIn with
    | nil => exact absurd rfl hne
    | cons x xs => simp
  intro fuel
  induction fuel with
  | zero =>
    intro acc out hacc hout hfu
    omega
  | succ n ih =>
    intro acc out hacc hout hfu
    rw [dropLoop]
    by_cases hbr : rounding (acc + inc) ≤ (framesIn.length : ℤ) - 1
        ∧ ¬(truthyZ fmaxO = true ∧ (out.length : ℤ) = fmaxO.getD 0)
    · rw [if_pos hbr]
      have hidx0 : 0 ≤ rounding (acc + inc) := rounding_nonneg (by linarith)
      obtain ⟨fr, hfr⟩ := pyIndex_some framesIn _ hidx0 hbr.1
      rw [hfr]
      have hneq : (out.length : ℤ) ≠ fmaxO.getD 0 := fun he => hbr.2 ⟨htm, he⟩
      apply ih (acc + inc) (out ++ [fr]) (by linarith)
      · simp only [List.length_append, List.length_singleton]
        omega
      · simp only [List.length_append, List.length_singleton]
        omega
    · rw [if_neg hbr]
      obtain ⟨a, ha⟩ := pyIndex_neg_one framesIn hne
      rw [ha]
      obtain ⟨l, hl, -⟩ := padLoop_ex fminO a
        (max 1 (fminO.getD 0).toNat - out.length) out le_rfl
      rw [hl]
      rfl

theorem dropLoop_term_inc {α : Type} (framesIn : List α) (inc : ℚ)
    (fminO fmaxO : Option ℤ) (hne : framesIn ≠ []) (hinc : 0 < inc) :
    ∀ (fuel : ℕ) (acc : ℚ) (out : List α), 0 ≤ acc →
      (framesIn.length : ℚ) - 1 / 2 - acc < inc * fuel →
      (dropLoop framesIn inc fminO fmaxO (fuel + 1) acc out).isSome = true := by
  intro fuel
  induction fuel with
  | zero =>
    intro acc out hacc hbound
    rw [dropLoop]
    by_cases hbr : rounding (acc + inc) ≤ (framesIn.length : ℤ) - 1
        ∧ ¬(truthyZ fmaxO = true ∧ (out.length : ℤ) = fmaxO.getD 0)
    · exfalso
      have hgt : (acc + inc) - 1 / 2 < (rounding (acc + inc) : ℚ) :=
        rounding_gt (by linarith)
      have hle : ((rounding (acc + inc) : ℚ)) ≤ (framesIn.length : ℚ) - 1 := by
        exact_mod_cast hbr.1
      simp only [Nat.cast_zero, mul_zero] at hbound
      linarith
    · rw [if_neg hbr]
      obtain ⟨a, ha⟩ := pyIndex_neg_one framesIn hne
      rw [ha]
      obtain ⟨l, hl, -⟩ := padLoop_ex fminO a
        (max 1 (fminO.getD 0).toNat - out.length) out le_rfl
      rw [hl]
      rfl
  | succ n ih =>
    intro acc out hacc hbound
    rw [dropLoop]
    by_cases hbr : rounding (acc + inc) ≤ (framesIn.length : ℤ) - 1
        ∧ ¬(truthyZ fmaxO = true ∧ (out.length : ℤ) = fmaxO.getD 0)
    · rw [if_pos hbr]
      have hidx0 : 0 ≤ rounding (acc + inc) := rounding_nonneg (by linarith)
      obtain ⟨fr, hfr⟩ := pyIndex_some framesIn _ hidx0 hbr.1
      rw [hfr]
      apply ih (acc + inc) (out ++ [fr]) (by linarith)
      have : inc * ((n : ℚ) + 1) = inc * n + inc := by ring
      push_cast at hbound ⊢
      linarith
    · rw [if_neg hbr]
      obtain ⟨a, ha⟩ := pyIndex_neg_one framesIn hne
      rw [ha]
      obtain ⟨l, hl, -⟩ := padLoop_ex fminO a
        (max 1 (fminO.getD 0).toNat - out.length) out le_rfl
      rw [hl]
      rfl

theorem truthyN_true {o : Option ℕ} (h : truthyN o = true) : 1 ≤ o.getD 0 := by
  simp [truthyN] at h
  omega

theorem truthyZ_some_pos {x : ℤ} (hx : x ≠ 0) : truthyZ (some x) = true := by
  simp [truthyZ]
  omega

theorem speedFactor_nonneg (codec_duration : ℚ) (duration_min duration_max : Option ℕ)
    (hcd : 0 ≤ codec_duration) :
    0 ≤ speedFactor codec_duration duration_min duration_max := by
  unfold speedFactor
  split_ifs with h1 h2
  · exact div_nonneg hcd (Nat.cast_nonneg _)
  · exact div_nonneg hcd (Nat.cast_nonneg _)
  · norm_num

theorem speedFactor_pos (codec_duration : ℚ) (duration_min duration_max : Option ℕ)
    (hcd : 0 < codec_duration) :
    0 < speedFactor codec_duration duration_min duration_max := by
  unfold speedFactor
  split_ifs with h1 h2
  · exact div_pos hcd (lt_trans hcd h1.2)
  · have := truthyN_true h2.1
    refine div_pos hcd ?_
    exact_mod_cast (by omega : (0 : ℕ) < duration_max.getD 0)
  · norm_num

theorem frameStep_nonneg (codec_fps fps codec_duration : ℚ)
    (duration_min duration_max : Option ℕ) (hcf : 0 ≤ codec_fps) (hf : 0 ≤ fps)
    (hcd : 0 ≤ codec_duration) :
    0 ≤ frameStep codec_fps fps codec_duration duration_min duration_max :=
  mul_nonneg (div_nonneg hcf hf)
    (speedFactor_nonneg codec_duration duration_min duration_max hcd)

theorem frameStep_pos (codec_fps fps codec_duration : ℚ)
    (duration_min duration_max : Option ℕ) (hcf : 0 < codec_fps) (hf : 0 < fps)
    (hcd : 0 < codec_duration) :
    0 < frameStep codec_fps fps codec_duration duration_min duration_max :=
  mul_pos (div_pos hcf hf)
    (speedFactor_pos codec_duration duration_min duration_max hcd)

theorem dropFuel_succ (len : ℕ) (inc : ℚ) (fmaxO : Option ℤ) :
    dropFuel len inc fmaxO
      = ((⌈((len : ℚ) + 1) / inc⌉).toNat + (fmaxO.getD 0).toNat + len + 1) + 1 := rfl

theorem dropFuel_bound (len : ℕ) (inc : ℚ) (fmaxO : Option ℤ) (hinc : 0 < inc) :
    (len : ℚ) - 1 / 2 - 0
      < inc * ((⌈((len : ℚ) + 1) / inc⌉).toNat + (fmaxO.getD 0).toNat + len + 1 : ℕ) := by
  have h1 : ((len : ℚ) + 1) / inc ≤ ((⌈((len : ℚ) + 1) / inc⌉ : ℤ) : ℚ) := Int.le_ceil _
  have h2 : ((⌈((len : ℚ) + 1) / inc⌉ : ℤ) : ℚ)
      ≤ (((⌈((len : ℚ) + 1) / inc⌉).toNat : ℕ) : ℚ) := by
    exact_mod_cast Int.self_le_toNat _
  have h3 : (len : ℚ) + 1 ≤ inc * ((⌈((len : ℚ) + 1) / inc⌉).toNat : ℕ) := by
    have hmul := mul_le_mul_of_nonneg_left (h1.trans h2) hinc.le
    rwa [mul_div_cancel₀ _ (ne_of_gt hinc)] at hmul
  have h4 : (0 : ℚ) ≤ inc * (((fmaxO.getD 0).toNat + len + 1 : ℕ) : ℚ) := by positivity
  have h5 : (((⌈((len : ℚ) + 1) / inc⌉).toNat + (fmaxO.getD 0).toNat + len + 1 : ℕ) : ℚ)
      = (((⌈((len : ℚ) + 1) / inc⌉).toNat : ℕ) : ℚ)
        + (((fmaxO.getD 0).toNat + len + 1 : ℕ) : ℚ) := by
    push_cast
    ring
  have h6 : inc * (((⌈((len : ℚ) + 1) / inc⌉).toNat + (fmaxO.getD 0).toNat + len + 1 : ℕ) : ℚ)
      = inc * (((⌈((len : ℚ) + 1) / inc⌉).toNat : ℕ) : ℚ)
        + inc * (((fmaxO.getD 0).toNat + len + 1 : ℕ) : ℚ) := by
    rw [h5]
    ring
  linarith

/-- Claim C10 (amended): for a non-empty frame list, positive source and
target frame rates, and a *positive source duration*, `frames_drop`
terminates with every list access in bounds, whatever the duration bounds —
including a computed maximum output-frame count of zero (such an `fmax` is
falsy and simply disables the cap).  A zero source duration under a set
`duration_min` makes `frame_increment` zero and the Python loop never
exits, so positivity of the duration is required (see the counterexample). -/
theorem C10_frames_drop_safety {α : Type} (is_animated : Bool)
    (codec_fps codec_duration : ℚ) (duration_min duration_max : Option ℕ)
    (fps : ℚ) (processedLen : ℕ) (frames_in : List α)
    (hne : frames_in ≠ []) (hcf : 0 < codec_fps) (hf : 0 < fps)
    (hcd : 0 < codec_duration) :
    ∃ l, frames_drop is_animated codec_fps codec_duration duration_min duration_max
        fps processedLen frames_in = some l ∧ l ≠ [] := by
  have hlen : 1 ≤ frames_in.length := by
    cases frames_in with
    | nil => exact absurd rfl hne
    | cons x xs => simp
  unfold frames_drop
  by_cases hearly : is_animated = false ∨ fps = 0 ∨ processedLen = 1
  · rw [if_pos hearly]
    obtain ⟨a, ha⟩ := pyIndex_some frames_in 0 le_rfl (by omega)
    rw [ha]
    exact ⟨[a], rfl, by simp⟩
  · rw [if_neg hearly]
    have hinc : 0 < frameStep codec_fps fps codec_duration duration_min duration_max :=
      frameStep_pos _ _ _ _ _ hcf hf hcd
    rw [dropFuel_succ]
    have hb := dropFuel_bound frames_in.length
      (frameStep codec_fps fps codec_duration duration_min duration_max)
      (framesOutMax fps duration_max) hinc
    have hS := dropLoop_term_inc frames_in
      (frameStep codec_fps fps codec_duration duration_min duration_max)
      (framesOutMin fps duration_min) (framesOutMax fps duration_max) hne hinc
      ((⌈((frames_in.length : ℚ) + 1)
          / frameStep codec_fps fps codec_duration duration_min duration_max⌉).toNat
        + ((framesOutMax fps duration_max).getD 0).toNat + frames_in.length + 1)
      0 [] le_rfl (by simpa using hb)
    obtain ⟨l, hl⟩ := Option.isSome_iff_exists.mp hS
    refine ⟨l, hl, ?_⟩
    have hz := (dropLoop_inv _ _ _ _ _ _ _ _ hl).2.1
    intro hnil
    rw [hnil] at hz
    simp at hz

/-- Claim C6 (amended): the output of `frames_drop` has length at least 1,
and when both duration bounds are set (for an animated multi-frame input
with a positive target fps, nonnegative source rate and duration) *and*
`ceil(fps*duration_min/1000) ≤ floor(fps*duration_max/1000)`, the output
length lies within `[ceil(fps*duration_min/1000), floor(fps*duration_max/1000)]`;
the output is a run of frames taken from the input followed by copies of
`frames_in[-1]`, the final *input* frame — the pad loop (lines 617-621)
repeats that frame, not the last selected one.  When the computed floor is 0
it is falsy and the cap is silently disabled, so the claimed interval bound
fails (see the counterexample, which also shows a shortfall padded with an
unselected final frame). -/
theorem C6_frames_drop_bounds {α : Type} (codec_fps codec_duration : ℚ)
    (dmin dmax : ℕ) (fps : ℚ) (processedLen : ℕ) (frames_in : List α)
    (hne : frames_in ≠ []) (hpl : processedLen ≠ 1) (hf : 0 < fps)
    (hcf : 0 ≤ codec_fps) (hcd : 0 ≤ codec_duration)
    (ha : 1 ≤ dmin) (hc : 1 ≤ dmax)
    (hio : (⌈fps * (dmin : ℚ) / 1000⌉ : ℤ) ≤ ⌊fps * (dmax : ℚ) / 1000⌋) :
    ∃ l, frames_drop true codec_fps codec_duration (some dmin) (some dmax) fps
        processedLen frames_in = some l
      ∧ 1 ≤ l.length
      ∧ ⌈fps * (dmin : ℚ) / 1000⌉ ≤ (l.length : ℤ)
      ∧ (l.length : ℤ) ≤ ⌊fps * (dmax : ℚ) / 1000⌋
      ∧ ∃ sel k, (∀ x ∈ sel, x ∈ frames_in)
          ∧ l = sel ++ List.replicate k (frames_in.getLast hne) := by
  have hFm1 : 1 ≤ (⌈fps * (dmin : ℚ) / 1000⌉ : ℤ) := by
    have hpos : (0 : ℚ) < fps * (dmin : ℚ) / 1000 := by
      have : (0 : ℚ) < (dmin : ℚ) := by exact_mod_cast (by omega : 0 < dmin)
      positivity
    exact Int.ceil_pos.mpr hpos
  have hFM1 : 1 ≤ (⌊fps * (dmax : ℚ) / 1000⌋ : ℤ) := le_trans hFm1 hio
  have htA : truthyN (some dmin) = true := by
    simp [truthyN]
    omega
  have htC : truthyN (some dmax) = true := by
    simp [truthyN]
    omega
  have hminEq : framesOutMin fps (some dmin) = some ⌈fps * (dmin : ℚ) / 1000⌉ := by
    rw [framesOutMin, if_pos htA]
    rfl
  have hmaxEq : framesOutMax fps (some dmax) = some ⌊fps * (dmax : ℚ) / 1000⌋ := by
    rw [framesOutMax, if_pos htC]
    rfl
  have htm : truthyZ (framesOutMax fps (some dmax)) = true := by
    rw [hmaxEq]
    exact truthyZ_some_pos (by omega)
  have hinc : 0 ≤ frameStep codec_fps fps codec_duration (some dmin) (some dmax) :=
    frameStep_nonneg _ _ _ _ _ hcf hf.le hcd
  unfold frames_drop
  have hng : ¬(true = false ∨ fps = 0 ∨ processedLen = 1) := by
    rintro (h | h | h)
    · cases h
    · exact absurd h (ne_of_gt hf)
    · exact hpl h
  rw [if_neg hng, dropFuel_succ]
  have hS := dropLoop_term_cap frames_in
    (frameStep codec_fps fps codec_duration (some dmin) (some dmax))
    (framesOutMin fps (some dmin)) (framesOutMax fps (some dmax)) hne hinc htm
    (by rw [hmaxEq]; simpa using hFM1)
    ((⌈((frames_in.length : ℚ) + 1)
        / frameStep codec_fps fps codec_duration (some dmin) (some dmax)⌉).toNat
      + ((framesOutMax fps (some dmax)).getD 0).toNat + frames_in.length + 1 + 1)
    0 [] le_rfl (by simp) (by rw [hmaxEq]; simp; omega)
  obtain ⟨l, hl⟩ := Option.isSome_iff_exists.mp hS
  obtain ⟨-, hz, hmin, hmax⟩ := dropLoop_inv _ _ _ _ _ _ _ _ hl
  have hminT : truthyZ (framesOutMin fps (some dmin)) = true := by
    rw [hminEq]
    exact truthyZ_some_pos (by omega)
  have hminLe := hmin hminT
  rw [hminEq] at hminLe
  simp only [Option.getD_some] at hminLe
  have hmaxLe := hmax htm (fun _ => by rw [hminEq, hmaxEq]; simpa using hio)
    (by rw [hmaxEq]; simpa using hFM1) (by simp)
  rw [hmaxEq] at hmaxLe
  simp only [Option.getD_some] at hmaxLe
  obtain ⟨sel, k, -, hmem, heq⟩ := dropLoop_decomp frames_in
    (frameStep codec_fps fps codec_duration (some dmin) (some dmax))
    (framesOutMin fps (some dmin)) (framesOutMax fps (some dmax)) hne _ _ _ _ hl
  refine ⟨l, hl, by omega, hminLe, by omega, sel, k, ?_, heq⟩
  intro x hx
  rcases hmem x hx with hx' | hx'
  · simp at hx'
  · exact hx'

/-- Claim C6 is false in two places.  (a) When the computed maximum
output-frame count `floor(fps*duration_max/1000)` is zero, zero is falsy in
Python, the cap is silently disabled, and the output (here 2 frames at fps 1,
duration bounds 100 ms and 500 ms) exceeds the claimed upper bound 0.
(b) The shortfall is padded with `frames_in[-1]`, the final *input* frame,
not the last selected frame: at source rate 13, target fps 8, duration
bounds 300/400 ms on 5 frames, the loop selects frames 2 and 3 and then pads
with frame 4 — the output is `[2, 3] ++ [4]`, not `[2, 3] ++ [3]`. -/
theorem C6_counterexample :
    frames_drop (α := ℕ) true 1 300 (some 100) (some 500) 1 0 [0, 1, 2] = some [1, 2]
    ∧ framesOutMin 1 (some 100) = some 1
    ∧ framesOutMax 1 (some 500) = some 0
    ∧ ¬ ((([1, 2] : List ℕ).length : ℤ) ≤ 0)
    ∧ frames_drop (α := ℕ) true 13 350 (some 300) (some 400) 8 0 [0, 1, 2, 3, 4]
        = some [2, 3, 4]
    ∧ ([2, 3, 4] : List ℕ) = [2, 3] ++ List.replicate 1 4
    ∧ ([2, 3, 4] : List ℕ) ≠ [2, 3] ++ List.replicate 1 3 := by
  have hstep : frameStep 1 1 300 (some 100) (some 500) = 1 := by
    norm_num [frameStep, speedFactor, truthyN]
  have hmin : framesOutMin 1 (some 100) = some 1 := by
    rw [framesOutMin, if_pos (by norm_num [truthyN])]
    simp only [Option.getD_some, Option.some.injEq]
    rw [Int.ceil_eq_iff]
    norm_num
  have hmax : framesOutMax 1 (some 500) = some 0 := by
    rw [framesOutMax, if_pos (by norm_num [truthyN])]
    simp only [Option.getD_some, Option.some.injEq]
    norm_num
  have hfuel : dropFuel 3 1 (some 0) = 9 := by
    rw [dropFuel]
    norm_num
    decide
  have h0 : frames_drop (α := ℕ) true 1 300 (some 100) (some 500) 1 0 [0, 1, 2]
      = dropLoop [0, 1, 2] 1 (some 1) (some 0) 9 0 [] := by
    unfold frames_drop
    rw [if_neg (by norm_num)]
    rw [hstep, hmin, hmax]
    norm_num [hfuel]
  have h1 : dropLoop (α := ℕ) [0, 1, 2] 1 (some 1) (some 0) 9 0 []
      = dropLoop [0, 1, 2] 1 (some 1) (some 0) 8 1 [1] := by
    show dropLoop (α := ℕ) [0, 1, 2] 1 (some 1) (some 0) (8 + 1) 0 [] = _
    rw [dropLoop]
    norm_num [rounding, pyRoundHalfUp, pyIndex, truthyZ]
  have h2 : dropLoop (α := ℕ) [0, 1, 2] 1 (some 1) (some 0) 8 1 [1]
      = dropLoop [0, 1, 2] 1 (some 1) (some 0) 7 2 [1, 2] := by
    show dropLoop (α := ℕ) [0, 1, 2] 1 (some 1) (some 0) (7 + 1) 1 [1] = _
    rw [dropLoop]
    norm_num [rounding, pyRoundHalfUp, pyIndex, truthyZ, show Int.toNat 2 = 2 from rfl]
  have h3 : dropLoop (α := ℕ) [0, 1, 2] 1 (some 1) (some 0) 7 2 [1, 2]
      = padLoop (some 1) (pyIndex [0, 1, 2] (-1)) [1, 2] := by
    show dropLoop (α := ℕ) [0, 1, 2] 1 (some 1) (some 0) (6 + 1) 2 [1, 2] = _
    rw [dropLoop]
    norm_num [rounding, pyRoundHalfUp]
  have h4 : padLoop (α := ℕ) (some 1) (pyIndex [0, 1, 2] (-1)) [1, 2] = some [1, 2] := by
    rw [padLoop.eq_def]
    norm_num [truthyZ]
  have hstep2 : frameStep 13 8 350 (some 300) (some 400) = 13 / 8 := by
    norm_num [frameStep, speedFactor, truthyN]
  have hmin2 : framesOutMin 8 (some 300) = some 3 := by
    rw [framesOutMin, if_pos (by norm_num [truthyN])]
    simp only [Option.getD_some, Option.some.injEq]
    rw [Int.ceil_eq_iff]
    norm_num
  have hmax2 : framesOutMax 8 (some 400) = some 3 := by
    rw [framesOutMax, if_pos (by norm_num [truthyN])]
    simp only [Option.getD_some, Option.some.injEq]
    norm_num
  have hfuel2 : dropFuel 5 (13 / 8) (some 3) = 14 := by
    rw [dropFuel]
    have hceil : (⌈(((5 : ℕ) : ℚ) + 1) / (13 / 8 : ℚ)⌉ : ℤ) = 4 := by
      rw [Int.ceil_eq_iff]
      norm_num
    rw [hceil]
    decide
  have g0 : frames_drop (α := ℕ) true 13 350 (some 300) (some 400) 8 0 [0, 1, 2, 3, 4]
      = dropLoop [0, 1, 2, 3, 4] (13 / 8) (some 3) (some 3) 14 0 [] := by
    unfold frames_drop
    rw [if_neg (by norm_num)]
    rw [hstep2, hmin2, hmax2]
    norm_num [hfuel2]
  have g1 : dropLoop (α := ℕ) [0, 1, 2, 3, 4] (13 / 8) (some 3) (some 3) 14 0 []
      = dropLoop [0, 1, 2, 3, 4] (13 / 8) (some 3) (some 3) 13 (13 / 8) [2] := by
    show dropLoop (α := ℕ) [0, 1, 2, 3, 4] (13 / 8) (some 3) (some 3) (13 + 1) 0 [] = _
    rw [dropLoop]
    norm_num [rounding, pyRoundHalfUp, pyIndex, truthyZ, show Int.toNat 2 = 2 from rfl]
  have g2 : dropLoop (α := ℕ) [0, 1, 2, 3, 4] (13 / 8) (some 3) (some 3) 13 (13 / 8) [2]
      = dropLoop [0, 1, 2, 3, 4] (13 / 8) (some 3) (some 3) 12 (13 / 4) [2, 3] := by
    show dropLoop (α := ℕ) [0, 1, 2, 3, 4] (13 / 8) (some 3) (some 3) (12 + 1) (13 / 8) [2] = _
    rw [dropLoop]
    norm_num [rounding, pyRoundHalfUp, pyIndex, truthyZ, show Int.toNat 3 = 3 from rfl]
  have g3 : dropLoop (α := ℕ) [0, 1, 2, 3, 4] (13 / 8) (some 3) (some 3) 12 (13 / 4) [2, 3]
      = padLoop (some 3) (pyIndex [0, 1, 2, 3, 4] (-1)) [2, 3] := by
    show dropLoop (α := ℕ) [0, 1, 2, 3, 4] (13 / 8) (some 3) (some 3) (11 + 1) (13 / 4) [2, 3] = _
    rw [dropLoop]
    norm_num [rounding, pyRoundHalfUp]
  have hpi4 : pyIndex ([0, 1, 2, 3, 4] : List ℕ) (-1) = some 4 := by decide
  have g4 : padLoop (α := ℕ) (some 3) (some 4) [2, 3] = some [2, 3, 4] := by
    rw [padLoop, dif_pos (by decide)]
    show padLoop (α := ℕ) (some 3) (some 4) ([2, 3] ++ [4]) = some [2, 3, 4]
    rw [padLoop, dif_neg (by decide)]
    rfl
  refine ⟨by rw [h0, h1, h2, h3, h4], hmin, hmax, by norm_num, ?_, by decide, by decide⟩
  rw [g0, g1, g2, g3, hpi4, g4]

/-- Witness for `C6_frames_drop_bounds` at fps 1000, duration bounds
1 ms and 2 ms. -/
theorem C6_frames_drop_bounds_witness :
    (frames_drop (α := ℕ) true 1000 (3 / 2 : ℚ) (some 1) (some 2) 1000 0 [5, 6]).isSome
      = true := by
  obtain ⟨l, hl, -⟩ := C6_frames_drop_bounds 1000 (3 / 2) 1 2 1000 0 [5, 6]
    (by decide) (by decide) (by norm_num) (by norm_num) (by norm_num) le_rfl
    (by norm_num) (by norm_num)
  rw [hl]
  rfl

/-- Claim C10 is false as stated: with positive source and target rates but
zero source duration and a set `duration_min`, `speed_ratio` and hence
`frame_increment` are zero, so the loop re-reads frame 0 forever and never
exits (no `frames_out_max` cap exists to stop it); the fuelled model reports
the non-exit as `none`. -/
theorem C10_counterexample :
    frames_drop (α := ℕ) true 30 0 (some 1000) none 30 0 [0, 1] = none := by
  have hstep : frameStep 30 30 0 (some 1000) none = 0 := by
    norm_num [frameStep, speedFactor, truthyN]
  have hmin : framesOutMin 30 (some 1000) = some 30 := by
    rw [framesOutMin, if_pos (by norm_num [truthyN])]
    simp only [Option.getD_some, Option.some.injEq]
    norm_num
  have hmax : framesOutMax 30 none = none := by
    rw [framesOutMax, if_neg (by norm_num [truthyN])]
  have hfuel : dropFuel 2 0 none = 4 := by
    rw [dropFuel]
    norm_num
  have h0 : frames_drop (α := ℕ) true 30 0 (some 1000) none 30 0 [0, 1]
      = dropLoop [0, 1] 0 (some 30) none 4 0 [] := by
    unfold frames_drop
    rw [if_neg (by norm_num)]
    rw [hstep, hmin, hmax]
    norm_num [hfuel]
  have hiter : ∀ (k : ℕ) (out : List ℕ),
      dropLoop [0, 1] (0 : ℚ) (some 30) none (k + 1) 0 out
        = dropLoop [0, 1] 0 (some 30) none k 0 (out ++ [0]) := by
    intro k out
    rw [dropLoop]
    norm_num [rounding, pyRoundHalfUp, pyIndex, truthyZ]
  rw [h0, hiter, hiter, hiter, hiter]
  rfl

/-- Witness for `C10_frames_drop_safety`: positive rates, source duration
500 ms below the 1000 ms minimum (so the output is slowed and padded). -/
theorem C10_frames_drop_safety_witness :
    (frames_drop (α := ℕ) true 30 500 (some 1000) none 30 0 [0, 1]).isSome = true := by
  obtain ⟨l, hl, -⟩ := C10_frames_drop_safety true 30 500 (some 1000) none 30 0 [0, 1]
    (by decide) (by norm_num) (by norm_num) (by norm_num)
  rw [hl]
  rfl

/-- The retry loop of `_quantize_by_imagequant` (lines 790-803): try the
quantizer once per upper-quality cap, returning the first success.  One
`imagequant.quantize_pil_image` call (dithering level, color count and
`min_quality` are fixed across attempts; only the `max_quality` cap `i`
varies) is abstracted as `attempt : ℕ → Option G`, where `none` models
the caught `RuntimeError`. -/
def firstAttempt {G : Type} (attempt : ℕ → Option G) (image : G) :
    List ℕ → G
  | [] => image
  | i :: rest =>
    match attempt i with
    | some q => q
    | none => firstAttempt attempt image rest

/-- `_quantize_by_imagequant` (lines 779-804): `for i in range(self.quality,
101, 5)` retries with relaxed caps; if every attempt raises, the original
image is returned (the fall-through `return image`). -/
def _quantize_by_imagequant {G : Type} (attempt : ℕ → Option G)
    (quality : ℕ) (image : G) : G :=
  firstAttempt attempt image (pyRange quality 101 5)

/-- `quantize` (lines 769-777): palette quantization dispatch on
`self.color` (Python truthiness) and `opt_comp.quantize_method`.  `octree`
abstracts `_quantize_by_fastoctree`'s single `image.quantize(colors=color,
method=2)` call; `image.copy()` is value-equal to the image itself. -/
def quantize {G : Type} (color : Option ℕ) (method : String)
    (attempt : ℕ → Option G) (octree : G → ℕ → G) (quality : ℕ)
    (image : G) : G :=
  if ¬(truthyN color = true ∧ color.getD 0 ≤ 256) then image
  else if method = "imagequant" then _quantize_by_imagequant attempt quality image
  else if method = "fastoctree" then octree image (color.getD 0)
  else image

theorem pyRange_mem (step : ℕ) (hstep : 0 < step) (stop i : ℕ) :
    ∀ (n start : ℕ), stop - start ≤ n →
      (i ∈ pyRange start stop step ↔ (∃ k, i = start + step * k) ∧ i < stop) := by
  intro n
  induction n with
  | zero =>
    intro start hn
    rw [pyRange, dif_pos (Or.inr (by omega))]
    simp only [List.not_mem_nil, false_iff]
    rintro ⟨⟨k, rfl⟩, hlt⟩
    omega
  | succ m ih =>
    intro start hn
    by_cases hlt : start < stop
    · rw [pyRange, dif_neg (by omega)]
      simp only [List.mem_cons]
      rw [ih (start + step) (by omega)]
      constructor
      · rintro (rfl | ⟨⟨k, rfl⟩, hk⟩)
        · exact ⟨⟨0, by omega⟩, hlt⟩
        · exact ⟨⟨k + 1, by ring⟩, hk⟩
      · rintro ⟨⟨k, rfl⟩, hk⟩
        cases k with
        | zero => exact Or.inl (by omega)
        | succ k' => exact Or.inr ⟨⟨k', by ring⟩, hk⟩
    · rw [pyRange, dif_pos (Or.inr hlt)]
      simp only [List.not_mem_nil, false_iff]
      rintro ⟨⟨k, rfl⟩, hk⟩
      omega

theorem firstAttempt_eq {G : Type} (attempt : ℕ → Option G) (image : G) :
    ∀ l : List ℕ, firstAttempt attempt image l = (l.findSome? attempt).getD image := by
  intro l
  induction l with
  | nil => simp [firstAttempt, List.findSome?]
  | cons i rest ih =>
    rw [firstAttempt, List.findSome?_cons]
    rcases h : attempt i with - | q
    · simpa using ih
    · simp

/-- Claim C8: palette quantization runs only for a truthy color count at
most 256 (otherwise the image is returned unquantized); the adaptive
imagequant strategy walks the caps `quality, quality+5, ...` up to 100,
returns the first attempt that succeeds and falls back to the unquantized
image when every attempt fails, never raising; the fixed octree strategy is
one deterministic call. -/
theorem C8_quantize_spec {G : Type} (color : Option ℕ) (method : String)
    (attempt : ℕ → Option G) (octree : G → ℕ → G) (quality : ℕ) (image : G) :
    (¬(truthyN color = true ∧ color.getD 0 ≤ 256) →
        quantize color method attempt octree quality image = image)
    ∧ (truthyN color = true → color.getD 0 ≤ 256 → method = "imagequant" →
        quantize color method attempt octree quality image
          = _quantize_by_imagequant attempt quality image)
    ∧ (truthyN color = true → color.getD 0 ≤ 256 → method = "fastoctree" →
        quantize color method attempt octree quality image = octree image (color.getD 0))
    ∧ _quantize_by_imagequant attempt quality image
        = ((pyRange quality 101 5).findSome? attempt).getD image
    ∧ ((∀ i ∈ pyRange quality 101 5, attempt i = none) →
        _quantize_by_imagequant attempt quality image = image)
    ∧ (∀ i, i ∈ pyRange quality 101 5 ↔ (∃ k, i = quality + 5 * k) ∧ i < 101) := by
  refine ⟨?_, ?_, ?_, ?_, ?_, ?_⟩
  · intro h
    rw [quantize, if_pos h]
  · intro h1 h2 h3
    rw [quantize, if_neg (not_not_intro ⟨h1, h2⟩), if_pos h3]
  · intro h1 h2 h3
    subst h3
    rw [quantize, if_neg (not_not_intro ⟨h1, h2⟩),
      if_neg (by decide : ¬("fastoctree" = "imagequant")), if_pos rfl]
  · exact firstAttempt_eq attempt image _
  · intro hall
    rw [_quantize_by_imagequant, firstAttempt_eq]
    rw [List.findSome?_eq_none_iff.mpr hall]
    rfl
  · intro i
    exact pyRange_mem 5 (by omega) 101 i (101 - quality) quality le_rfl

/-- Witness for `C8_quantize_spec`: color count 16 with the imagequant
method dispatches to the retry loop; cap 90 = 85 + 5 is among the retry
caps; with an always-failing quantizer the original image 7 is returned. -/
theorem C8_quantize_spec_witness :
    quantize (G := ℕ) (some 16) "imagequant"
        (fun i => if 90 ≤ i then some 1 else none) (fun im _ => im) 85 7
      = _quantize_by_imagequant (fun i => if 90 ≤ i then some 1 else none) 85 7
    ∧ (90 : ℕ) ∈ pyRange 85 101 5
    ∧ _quantize_by_imagequant (G := ℕ) (fun _ => none) 85 7 = 7 := by
  have h := C8_quantize_spec (G := ℕ) (some 16) "imagequant"
    (fun i => if 90 ≤ i then some 1 else none) (fun im _ => im) 85 7
  have h2 := C8_quantize_spec (G := ℕ) (some 16) "imagequant"
    (fun _ => none) (fun im _ => im) 85 7
  refine ⟨h.2.1 (by decide) (by decide) rfl, ?_, ?_⟩
  · exact (h.2.2.2.2.2 90).mpr ⟨⟨1, by omega⟩, by omega⟩
  · exact h2.2.2.2.2.1 (fun i _ => rfl)

/-- `_frames_export_apng` (lines 715-755), as the list of (frame, delay_num,
delay_den) triples handed to `apngasm.add_frame`.  A raster image is a list
of pixel rows; `np.concatenate(self.frames_processed)` stacks the frames
into one vertical filmstrip (row-list concatenation); `quant` abstracts the
single `self.quantize(image_concat)` call; `optimize` abstracts the
per-frame png save / `optimize_png` / reload round trip; the crop box
`(0, i, width, i + res_h)` keeps rows `[i, i + res_h)`; delays are
`delay_num = int(1000 / self.fps)` against `delay_den = 1000`. -/
def _frames_export_apng {P : Type} (quant optimize : List (List P) → List (List P))
    (fps : ℚ) (res_h : ℕ) (frames : List (List (List P))) :
    List (List (List P) × ℤ × ℕ) :=
  let frames_concat := frames.flatten
  let image_quant := quant frames_concat
  let delay_num := pyTrunc (1000 / fps)
  (pyRange 0 image_quant.length res_h).map (fun i =>
    (optimize ((image_quant.drop i).take res_h), delay_num, 1000))

theorem pyRange_mul (h : ℕ) (hh : 0 < h) :
    ∀ (n j : ℕ), pyRange (j * h) ((j + n) * h) h
      = (List.range' j n).map (fun k => k * h) := by
  intro n
  induction n with
  | zero =>
    intro j
    rw [pyRange, dif_pos (Or.inr (by simp))]
    simp
  | succ m ih =>
    intro j
    rw [pyRange, dif_neg (by push_neg; refine ⟨by omega, ?_⟩; nlinarith)]
    rw [List.range'_succ, List.map_cons]
    have hstep : j * h + h = (j + 1) * h := by ring
    have hstop : (j + (m + 1)) * h = ((j + 1) + m) * h := by ring
    rw [hstep, hstop, ih (j + 1)]

theorem pyRange_zero_mul (h n : ℕ) (hh : 0 < h) :
    pyRange 0 (n * h) h = (List.range n).map (fun k => k * h) := by
  have := pyRange_mul h hh n 0
  simpa [List.range_eq_range'] using this

theorem flatten_length_uniform {P : Type} (frames : List (List P)) (r : ℕ)
    (hh : ∀ fr ∈ frames, fr.length = r) :
    frames.flatten.length = frames.length * r := by
  induction frames with
  | nil => simp
  | cons f fs ih =>
    simp only [List.flatten_cons, List.length_append, List.length_cons]
    rw [hh f (by simp), ih (fun fr hfr => hh fr (by simp [hfr]))]
    ring

/-- Claim C9 (amended): animated-PNG export concatenates all frames into one
vertical filmstrip, palette-quantizes the strip once (one shared palette),
crops it back into one image per frame, binary-optimizes each, and enters
each into the container with per-frame delay `int(1000/fps) = floor(1000/fps)`
milliseconds — the delay is *truncated*, not rounded (see the
counterexample). -/
theorem C9_apng_export {P : Type} (quant optimize : List (List P) → List (List P))
    (fps : ℚ) (res_h : ℕ) (frames : List (List (List P)))
    (hfps : 0 < fps) (hres : 1 ≤ res_h)
    (hheights : ∀ fr ∈ frames, fr.length = res_h)
    (hquant : (quant frames.flatten).length = frames.flatten.length) :
    (_frames_export_apng quant optimize fps res_h frames).length = frames.length
    ∧ (∀ k, k < frames.length →
        (_frames_export_apng quant optimize fps res_h frames).getD k default
          = (optimize (((quant frames.flatten).drop (k * res_h)).take res_h),
             pyTrunc (1000 / fps), 1000))
    ∧ pyTrunc (1000 / fps) = ⌊1000 / fps⌋ := by
  have hlen : (quant frames.flatten).length = frames.length * res_h := by
    rw [hquant]
    exact flatten_length_uniform frames res_h hheights
  have hrange : pyRange 0 (quant frames.flatten).length res_h
      = (List.range frames.length).map (fun k => k * res_h) := by
    rw [hlen]
    exact pyRange_zero_mul res_h frames.length (by omega)
  refine ⟨?_, ?_, ?_⟩
  · rw [_frames_export_apng]
    simp only [hrange, List.length_map, List.length_range]
  · intro k hk
    rw [_frames_export_apng]
    simp only [hrange, List.map_map]
    rw [range_map_getD _ _ _ _ hk]
    rfl
  · rw [pyTrunc, if_pos (by positivity)]

/-- Claim C9's delay formula is false on the code: `_frames_export_apng`
computes `delay_num = int(1000 / self.fps)`, truncation toward zero, so at
6 fps the stored delay is 166 ms while `round(1000/6)` is 167 ms. -/
theorem C9_counterexample :
    _frames_export_apng (P := ℕ) id id 6 1 [[[1]]] = [([[1]], 166, 1000)]
    ∧ pyRoundHalfEven (1000 / 6) = 167
    ∧ (166 : ℤ) ≠ 167 := by
  have hrange : pyRange 0 1 1 = [0] := by
    rw [pyRange, dif_neg (by omega)]
    rw [pyRange, dif_pos (by omega)]
  have htr : pyTrunc ((500 : ℚ) / 3) = 166 := by
    rw [pyTrunc, if_pos (by norm_num)]
    norm_num
  refine ⟨?_, ?_, by decide⟩
  · rw [_frames_export_apng]
    simp only [List.flatten, id, List.append_nil]
    norm_num [hrange, htr]
  · norm_num [pyRoundHalfEven]

/-- Witness for `C9_apng_export`: one single-row frame at 6 fps. -/
theorem C9_apng_export_witness :
    (_frames_export_apng (P := ℕ) id id 6 1 [[[1]]]).length = ([[[1]]] : List (List (List ℕ))).length
    ∧ pyTrunc (1000 / 6) = ⌊(1000 : ℚ) / 6⌋ := by
  have h := C9_apng_export (P := ℕ) id id 6 1 [[[1]]] (by norm_num) le_rfl
    (by intro fr hfr; simp at hfr; rw [hfr]; rfl) rfl
  exact ⟨h.1, h.2.2⟩

/-- Split a flat buffer into consecutive rows of `w` entries: the effect of
`numpy.reshape(-1, w)` (and of `.reshape(h, w)` when the length is `h * w`). -/
def chunkRows {α : Type} (w : ℕ) (l : List α) : List (List α) :=
  if h : w = 0 ∨ l.length = 0 then [] else l.take w :: chunkRows w (l.drop w)
termination_by l.length
decreasing_by
  push_neg at h
  simp only [List.length_drop]
  omega

/-- `useful_array` (`converter.py` lines 54-62) for one byte per pixel (as
at every call site): crop each padded line of `line_size` bytes down to its
logical `width` bytes (`arr.reshape(-1, total)[:, 0:useful].reshape(-1)`),
a no-op when the stride already equals the width. -/
def useful_array (buf : List ℕ) (line_size width : ℕ) : List ℕ :=
  if line_size ≠ width then
    ((chunkRows line_size buf).map (fun r => r.take width)).flatten
  else buf

/-- `numpy.repeat(a, 2, axis)` along a list dimension: each entry twice. -/
def repeatTwice {α : Type} (l : List α) : List α := l.flatMap (fun x => [x, x])

/-- The odd-dimension truncation of `_frames_import_pyav` (lines 422-429):
`width - 1` when odd, else `width`. -/
def evenTrunc (n : ℕ) : ℕ := if n % 2 ≠ 0 then n - 1 else n

/-- `numpy.clip` on a scalar. -/
def clipQ (x lo hi : ℚ) : ℚ := min (max x lo) hi

/-- `.clip(0, 255).astype("uint8")` on a scalar: clip then truncate. -/
def toU8 (q : ℚ) : ℕ := (pyTrunc (clipQ q 0 255)).toNat

/-- The per-pixel arithmetic of lines 469-491: stack y/u/v, clip luma to
[16,235] and chroma to [16,240] (the `astype(yuv_array.dtype)` is a no-op
in exact arithmetic), subtract offsets 16 / 128, apply the BT.601 matrix
`[[1.164, 0, 1.793], [1.164, -0.213, -0.533], [1.164, 2.112, 0]]`
(`np.matmul(yuv_array, convert.T)`), clip to [0,255], cast to uint8, and
concatenate the alpha sample. -/
def yuvaPixel (yv uv vv av : ℕ) : ℕ × ℕ × ℕ × ℕ :=
  let y1 : ℚ := clipQ (yv : ℚ) 16 235 - 16
  let u1 : ℚ := clipQ (uv : ℚ) 16 240 - 128
  let v1 : ℚ := clipQ (vv : ℚ) 16 240 - 128
  (toU8 (1.164 * y1 + 0 * u1 + 1.793 * v1),
   toU8 (1.164 * y1 + (-0.213) * u1 + (-0.533) * v1),
   toU8 (1.164 * y1 + 2.112 * u1 + 0 * v1),
   av)

/-- Pointwise combination of four equal-shaped arrays (numpy broadcasting
of the stacking / arithmetic / concatenation steps). -/
def zipWith4 {α β γ δ ε : Type} (f : α → β → γ → δ → ε) :
    List α → List β → List γ → List δ → List ε
  | a :: as, b :: bs, c :: cs, d :: ds => f a b c d :: zipWith4 f as bs cs ds
  | _, _, _, _ => []

/-- The `yuva420p` branch of `_frames_import_pyav` (lines 439-491): take the
four already-reformatted planes (buffers with their strides), crop each to
its logical width, reshape to rows, nearest-neighbor upsample the two
chroma planes 2x in both axes (`u.repeat(2, axis=0).repeat(2, axis=1)`),
and combine everything pointwise with `yuvaPixel`.  The frame dimensions
are the odd-truncated `width`/`height` handed to `frame.reformat`. -/
def frames_import_yuva (width0 : ℕ) (yP uP vP aP : List ℕ)
    (yS uS vS aS : ℕ) : List (List (ℕ × ℕ × ℕ × ℕ)) :=
  let width := evenTrunc width0
  let y := chunkRows width (useful_array yP yS width)
  let u := chunkRows (width / 2) (useful_array uP uS (width / 2))
  let v := chunkRows (width / 2) (useful_array vP vS (width / 2))
  let a := chunkRows width (useful_array aP aS width)
  let u2 := (repeatTwice u).map repeatTwice
  let v2 := (repeatTwice v).map repeatTwice
  zipWith4 (fun ry ru rv ra => zipWith4 yuvaPixel ry ru rv ra) y u2 v2 a

theorem evenTrunc_even (n : ℕ) : evenTrunc n % 2 = 0 := by
  unfold evenTrunc
  split_ifs with h <;> omega

theorem chunkRows_length {α : Type} (w : ℕ) (hw : 1 ≤ w) :
    ∀ (h : ℕ) (l : List α), l.length = h * w → (chunkRows w l).length = h := by
  intro h
  induction h with
  | zero =>
    intro l hl
    rw [chunkRows, dif_pos (Or.inr (by omega))]
    rfl
  | succ m ih =>
    intro l hl
    have hmul : (m + 1) * w = m * w + w := by ring
    rw [chunkRows, dif_neg (by push_neg; omega)]
    simp only [List.length_cons]
    rw [ih (l.drop w) (by rw [List.length_drop]; omega)]

theorem chunkRows_row_length {α : Type} (w : ℕ) (hw : 1 ≤ w) :
    ∀ (h : ℕ) (l : List α), l.length = h * w → ∀ r ∈ chunkRows w l, r.length = w := by
  intro h
  induction h with
  | zero =>
    intro l hl r hr
    rw [chunkRows, dif_pos (Or.inr (by omega))] at hr
    simp at hr
  | succ m ih =>
    intro l hl r hr
    have hmul : (m + 1) * w = m * w + w := by ring
    rw [chunkRows, dif_neg (by push_neg; omega)] at hr
    rcases List.mem_cons.mp hr with rfl | hr'
    · rw [List.length_take]
      omega
    · exact ih (l.drop w) (by rw [List.length_drop]; omega) r hr'

theorem chunkRows_getD {α : Type} (w : ℕ) (hw : 1 ≤ w) :
    ∀ (i : ℕ) (l : List α), (i + 1) * w ≤ l.length →
      (chunkRows w l).getD i [] = (l.drop (i * w)).take w := by
  intro i
  induction i with
  | zero =>
    intro l hl
    have hone : 1 * w = w := by ring
    rw [chunkRows, dif_neg (by push_neg; omega)]
    simp
  | succ m ih =>
    intro l hl
    have hmul : (m + 1 + 1) * w = (m + 1) * w + w := by ring
    rw [chunkRows, dif_neg (by push_neg; omega)]
    rw [List.getD_cons_succ]
    rw [ih (l.drop w) (by rw [List.length_drop]; omega)]
    rw [List.drop_drop]
    congr 2
    ring

theorem getD_take_lt {α : Type} (l : List α) (w j : ℕ) (d : α) (hj : j < w) :
    (l.take w).getD j d = l.getD j d := by
  rw [List.getD_eq_getElem?_getD, List.getElem?_take, if_pos hj,
    ← List.getD_eq_getElem?_getD]

theorem getD_drop_add {α : Type} (l : List α) (n j : ℕ) (d : α) :
    (l.drop n).getD j d = l.getD (n + j) d := by
  rw [List.getD_eq_getElem?_getD, List.getElem?_drop, ← List.getD_eq_getElem?_getD]

theorem getD_map_lt {α β : Type} (f : α → β) (l : List α) (i : ℕ) (d : β) (d₀ : α)
    (hi : i < l.length) : (l.map f).getD i d = f (l.getD i d₀) := by
  rw [List.getD_eq_getElem?_getD, List.getElem?_map,
    List.getElem?_eq_getElem hi]
  rw [List.getD_eq_getElem?_getD, List.getElem?_eq_getElem hi]
  rfl

theorem flatten_uniform_getD {α : Type} (w : ℕ) (d : α) :
    ∀ (rows : List (List α)) (i j : ℕ), (∀ r ∈ rows, r.length = w) →
      i < rows.length → j < w →
      rows.flatten.getD (i * w + j) d = (rows.getD i []).getD j d := by
  intro rows
  induction rows with
  | nil =>
    intro i j hall hi
    simp at hi
  | cons r rest ih =>
    intro i j hall hi hj
    have hr : r.length = w := hall r (by simp)
    cases i with
    | zero =>
      simp only [List.flatten_cons, List.getD_cons_zero, Nat.zero_mul, Nat.zero_add]
      exact List.getD_append _ _ _ _ (by omega)
    | succ m =>
      simp only [List.flatten_cons, List.getD_cons_succ]
      have hmul : (m + 1) * w = m * w + w := by ring
      rw [List.getD_append_right _ _ _ _ (by omega)]
      have harith : (m + 1) * w + j - r.length = m * w + j := by omega
      rw [harith]
      exact ih m j (fun r' hr' => hall r' (by simp [hr'])) (by simpa using hi) hj

theorem useful_array_length (buf : List ℕ) (S w h : ℕ) (hw : 1 ≤ w) (hS : w ≤ S)
    (hbuf : buf.length = h * S) : (useful_array buf S w).length = h * w := by
  unfold useful_array
  by_cases hSw : S ≠ w
  · rw [if_pos hSw]
    have hS1 : 1 ≤ S := le_trans hw hS
    have hrl : ∀ r ∈ (chunkRows S buf).map (fun r => r.take w), r.length = w := by
      intro r hr
      rw [List.mem_map] at hr
      obtain ⟨r₀, hr₀, rfl⟩ := hr
      rw [List.length_take]
      have := chunkRows_row_length S hS1 h buf hbuf r₀ hr₀
      omega
    rw [flatten_length_uniform _ w hrl, List.length_map,
      chunkRows_length S hS1 h buf hbuf]
  · rw [if_neg hSw]
    push_neg at hSw
    rw [hbuf, hSw]

theorem useful_array_getD (buf : List ℕ) (S w h i j : ℕ) (hw : 1 ≤ w) (hS : w ≤ S)
    (hbuf : buf.length = h * S) (hi : i < h) (hj : j < w) :
    (useful_array buf S w).getD (i * w + j) 0 = buf.getD (i * S + j) 0 := by
  unfold useful_array
  by_cases hSw : S ≠ w
  · rw [if_pos hSw]
    have hS1 : 1 ≤ S := le_trans hw hS
    have hrows : (chunkRows S buf).length = h := chunkRows_length S hS1 h buf hbuf
    have hrl : ∀ r ∈ (chunkRows S buf).map (fun r => r.take w), r.length = w := by
      intro r hr
      rw [List.mem_map] at hr
      obtain ⟨r₀, hr₀, rfl⟩ := hr
      rw [List.length_take]
      have := chunkRows_row_length S hS1 h buf hbuf r₀ hr₀
      omega
    rw [flatten_uniform_getD w 0 _ i j hrl (by rw [List.length_map, hrows]; exact hi) hj]
    rw [getD_map_lt _ _ i [] [] (by rw [hrows]; exact hi)]
    rw [getD_take_lt _ _ _ _ hj]
    rw [chunkRows_getD S hS1 i buf (by
      have := Nat.mul_le_mul_right S (by omega : i + 1 ≤ h)
      omega)]
    rw [getD_take_lt _ _ _ _ (by omega), getD_drop_add]
  · rw [if_neg hSw]
    push_neg at hSw
    rw [hSw]

theorem plane_cell (buf : List ℕ) (S w h i j : ℕ) (hw : 1 ≤ w) (hS : w ≤ S)
    (hbuf : buf.length = h * S) (hi : i < h) (hj : j < w) :
    ((chunkRows w (useful_array buf S w)).getD i []).getD j 0
      = buf.getD (i * S + j) 0 := by
  have hua : (useful_array buf S w).length = h * w :=
    useful_array_length buf S w h hw hS hbuf
  rw [chunkRows_getD w hw i _ (by
    have := Nat.mul_le_mul_right w (by omega : i + 1 ≤ h)
    omega)]
  rw [getD_take_lt _ _ _ _ hj, getD_drop_add]
  exact useful_array_getD buf S w h i j hw hS hbuf hi hj

theorem repeatTwice_length {α : Type} (l : List α) :
    (repeatTwice l).length = 2 * l.length := by
  induction l with
  | nil => rfl
  | cons x xs ih =>
    show (x :: x :: repeatTwice xs).length = _
    simp only [List.length_cons, ih, List.length_cons]
    omega

theorem repeatTwice_getD {α : Type} (d : α) :
    ∀ (l : List α) (i : ℕ), i < 2 * l.length →
      (repeatTwice l).getD i d = l.getD (i / 2) d := by
  intro l
  induction l with
  | nil =>
    intro i hi
    simp at hi
  | cons x xs ih =>
    intro i hi
    show (x :: x :: repeatTwice xs).getD i d = _
    match i with
    | 0 => rfl
    | 1 => rfl
    | (m + 2) =>
      rw [List.getD_cons_succ, List.getD_cons_succ,
        ih m (by simp only [List.length_cons] at hi; omega)]
      have : (m + 2) / 2 = m / 2 + 1 := by omega
      rw [this, List.getD_cons_succ]

theorem zipWith4_length {α β γ δ ε : Type} (f : α → β → γ → δ → ε) :
    ∀ (n : ℕ) (as : List α) (bs : List β) (cs : List γ) (ds : List δ),
      as.length = n → bs.length = n → cs.length = n → ds.length = n →
      (zipWith4 f as bs cs ds).length = n := by
  intro n
  induction n with
  | zero =>
    intro as bs cs ds ha hb hc hd
    rw [List.length_eq_zero.mp ha, List.length_eq_zero.mp hb,
      List.length_eq_zero.mp hc, List.length_eq_zero.mp hd]
    rfl
  | succ m ih =>
    intro as bs cs ds ha hb hc hd
    rcases as with - | ⟨a, as'⟩
    · cases ha
    rcases bs with - | ⟨b, bs'⟩
    · cases hb
    rcases cs with - | ⟨c, cs'⟩
    · cases hc
    rcases ds with - | ⟨d, ds'⟩
    · cases hd
    show (f a b c d :: zipWith4 f as' bs' cs' ds').length = m + 1
    simp only [List.length_cons] at ha hb hc hd ⊢
    rw [ih as' bs' cs' ds' (by omega) (by omega) (by omega) (by omega)]

theorem zipWith4_getD {α β γ δ ε : Type} (f : α → β → γ → δ → ε)
    (da : α) (db : β) (dc : γ) (dd : δ) (de : ε) :
    ∀ (n i : ℕ) (as : List α) (bs : List β) (cs : List γ) (ds : List δ),
      as.length = n → bs.length = n → cs.length = n → ds.length = n → i < n →
      (zipWith4 f as bs cs ds).getD i de
        = f (as.getD i da) (bs.getD i db) (cs.getD i dc) (ds.getD i dd) := by
  intro n
  induction n with
  | zero =>
    intro i as bs cs ds ha hb hc hd hi
    omega
  | succ m ih =>
    intro i as bs cs ds ha hb hc hd hi
    rcases as with - | ⟨a, as'⟩
    · cases ha
    rcases bs with - | ⟨b, bs'⟩
    · cases hb
    rcases cs with - | ⟨c, cs'⟩
    · cases hc
    rcases ds with - | ⟨d, ds'⟩
    · cases hd
    show (f a b c d :: zipWith4 f as' bs' cs' ds').getD i de = _
    simp only [List.length_cons] at ha hb hc hd
    cases i with
    | zero => rfl
    | succ k =>
      rw [List.getD_cons_succ, List.getD_cons_succ, List.getD_cons_succ,
        List.getD_cons_succ, List.getD_cons_succ]
      exact ih k as' bs' cs' ds' (by omega) (by omega) (by omega) (by omega) (by omega)

theorem chunkRows_getD_length {α : Type} (w h i : ℕ) (hw : 1 ≤ w) (l : List α)
    (hl : l.length = h * w) (hi : i < h) :
    ((chunkRows w l).getD i []).length = w := by
  rw [chunkRows_getD w hw i l (by
    have := Nat.mul_le_mul_right w (show i + 1 ≤ h by omega)
    omega)]
  rw [List.length_take, List.length_drop]
  have h1 := Nat.mul_le_mul_right w (show i + 1 ≤ h by omega)
  have h2 : (i + 1) * w = i * w + w := by ring
  omega

theorem yuvaPixel_explicit (yv uv vv av : ℕ) :
    yuvaPixel yv uv vv av
      = (toU8 (1.164 * (clipQ (yv : ℚ) 16 235 - 16)
            + 1.793 * (clipQ (vv : ℚ) 16 240 - 128)),
         toU8 (1.164 * (clipQ (yv : ℚ) 16 235 - 16)
            - 0.213 * (clipQ (uv : ℚ) 16 240 - 128)
            - 0.533 * (clipQ (vv : ℚ) 16 240 - 128)),
         toU8 (1.164 * (clipQ (yv : ℚ) 16 235 - 16)
            + 2.112 * (clipQ (uv : ℚ) 16 240 - 128)),
         av) := by
  simp only [yuvaPixel]
  congr 1
  · exact congrArg toU8 (by ring)
  congr 1
  · exact congrArg toU8 (by ring)
  congr 1
  exact congrArg toU8 (by ring)

/-- Modelled from the spec: the BT.601 studio-swing YUV→RGB matrix named by the
spec ("apply the BT.601 YUV→RGB 3×3 coefficient matrix"), with the standard
three-decimal BT.601 coefficients, applied through the same clip/offset/truncate
pipeline as the code's pixel transform. Used only to compare against the matrix
actually present in `converter.py` lines 483-489. -/
def bt601Pixel (yv uv vv av : ℕ) : ℕ × ℕ × ℕ × ℕ :=
  let y1 : ℚ := clipQ (yv : ℚ) 16 235 - 16
  let u1 : ℚ := clipQ (uv : ℚ) 16 240 - 128
  let v1 : ℚ := clipQ (vv : ℚ) 16 240 - 128
  (toU8 (1.164 * y1 + 0 * u1 + 1.596 * v1),
   toU8 (1.164 * y1 + (-0.392) * u1 + (-0.813) * v1),
   toU8 (1.164 * y1 + 2.017 * u1 + 0 * v1),
   av)

/-- Claim C7 (amended): the planar 4:2:0-with-alpha decode path truncates odd
width/height by one pixel (`evenTrunc`), crops each plane to its logical stride
(`useful_array`: cell (i,j) of a plane with stride S reads buffer index i*S+j),
nearest-neighbour upsamples both chroma planes 2× in each axis (pixel (i,j)
reads chroma cell (i/2, j/2)), clips luma to [16,235] and chroma to [16,240],
subtracts offsets 16/128, applies the BT.709 (not BT.601) 3×3 matrix
[[1.164,0,1.793],[1.164,-0.213,-0.533],[1.164,2.112,0]], clips to [0,255] and
truncates to integers, and concatenates the separately decoded alpha plane
unchanged as the fourth channel. -/
theorem C7_yuva_decode (width0 height0 w h yS uS vS aS : ℕ)
    (yP uP vP aP : List ℕ)
    (hw : evenTrunc width0 = w) (hh : evenTrunc height0 = h)
    (hw2 : 2 ≤ w) (hh2 : 2 ≤ h)
    (hyS : w ≤ yS) (haS : w ≤ aS) (huS : w / 2 ≤ uS) (hvS : w / 2 ≤ vS)
    (hyL : yP.length = h * yS) (haL : aP.length = h * aS)
    (huL : uP.length = h / 2 * uS) (hvL : vP.length = h / 2 * vS) :
    (frames_import_yuva width0 yP uP vP aP yS uS vS aS).length = h
    ∧ (∀ i, i < h →
        ((frames_import_yuva width0 yP uP vP aP yS uS vS aS).getD i []).length = w)
    ∧ (∀ yv uv vv av : ℕ,
        yuvaPixel yv uv vv av
          = (toU8 (1.164 * (clipQ (yv : ℚ) 16 235 - 16)
                + 1.793 * (clipQ (vv : ℚ) 16 240 - 128)),
             toU8 (1.164 * (clipQ (yv : ℚ) 16 235 - 16)
                - 0.213 * (clipQ (uv : ℚ) 16 240 - 128)
                - 0.533 * (clipQ (vv : ℚ) 16 240 - 128)),
             toU8 (1.164 * (clipQ (yv : ℚ) 16 235 - 16)
                + 2.112 * (clipQ (uv : ℚ) 16 240 - 128)),
             av))
    ∧ ∀ i j, i < h → j < w →
        ((frames_import_yuva width0 yP uP vP aP yS uS vS aS).getD i []).getD j
            (0, 0, 0, 0)
          = yuvaPixel (yP.getD (i * yS + j) 0) (uP.getD (i / 2 * uS + j / 2) 0)
              (vP.getD (i / 2 * vS + j / 2) 0) (aP.getD (i * aS + j) 0) := by
  have hwe : w % 2 = 0 := hw ▸ evenTrunc_even width0
  have hhe : h % 2 = 0 := hh ▸ evenTrunc_even height0
  have hw1 : 1 ≤ w := by omega
  have hwh : 1 ≤ w / 2 := by omega
  have hYua : (useful_array yP yS w).length = h * w :=
    useful_array_length yP yS w h hw1 hyS hyL
  have hAua : (useful_array aP aS w).length = h * w :=
    useful_array_length aP aS w h hw1 haS haL
  have hUua : (useful_array uP uS (w / 2)).length = h / 2 * (w / 2) :=
    useful_array_length uP uS (w / 2) (h / 2) hwh huS huL
  have hVua : (useful_array vP vS (w / 2)).length = h / 2 * (w / 2) :=
    useful_array_length vP vS (w / 2) (h / 2) hwh hvS hvL
  have hYlen : (chunkRows w (useful_array yP yS w)).length = h :=
    chunkRows_length w hw1 h _ hYua
  have hAlen : (chunkRows w (useful_array aP aS w)).length = h :=
    chunkRows_length w hw1 h _ hAua
  have hUlen : (chunkRows (w / 2) (useful_array uP uS (w / 2))).length = h / 2 :=
    chunkRows_length (w / 2) hwh (h / 2) _ hUua
  have hVlen : (chunkRows (w / 2) (useful_array vP vS (w / 2))).length = h / 2 :=
    chunkRows_length (w / 2) hwh (h / 2) _ hVua
  have hU2len :
      ((repeatTwice (chunkRows (w / 2) (useful_array uP uS (w / 2)))).map
        repeatTwice).length = h := by
    rw [List.length_map, repeatTwice_length, hUlen]
    omega
  have hV2len :
      ((repeatTwice (chunkRows (w / 2) (useful_array vP vS (w / 2)))).map
        repeatTwice).length = h := by
    rw [List.length_map, repeatTwice_length, hVlen]
    omega
  have hU2getD : ∀ i, i < h →
      ((repeatTwice (chunkRows (w / 2) (useful_array uP uS (w / 2)))).map
        repeatTwice).getD i []
        = repeatTwice
            ((chunkRows (w / 2) (useful_array uP uS (w / 2))).getD (i / 2) []) := by
    intro i hi
    rw [getD_map_lt repeatTwice _ i [] []
      (by rw [repeatTwice_length, hUlen]; omega)]
    rw [repeatTwice_getD [] _ i (by rw [hUlen]; omega)]
  have hV2getD : ∀ i, i < h →
      ((repeatTwice (chunkRows (w / 2) (useful_array vP vS (w / 2)))).map
        repeatTwice).getD i []
        = repeatTwice
            ((chunkRows (w / 2) (useful_array vP vS (w / 2))).getD (i / 2) []) := by
    intro i hi
    rw [getD_map_lt repeatTwice _ i [] []
      (by rw [repeatTwice_length, hVlen]; omega)]
    rw [repeatTwice_getD [] _ i (by rw [hVlen]; omega)]
  have hYrow : ∀ i, i < h →
      ((chunkRows w (useful_array yP yS w)).getD i []).length = w :=
    fun i hi => chunkRows_getD_length w h i hw1 _ hYua hi
  have hArow : ∀ i, i < h →
      ((chunkRows w (useful_array aP aS w)).getD i []).length = w :=
    fun i hi => chunkRows_getD_length w h i hw1 _ hAua hi
  have hUrow : ∀ i, i < h →
      (repeatTwice
        ((chunkRows (w / 2) (useful_array uP uS (w / 2))).getD (i / 2) [])).length
        = w := by
    intro i hi
    rw [repeatTwice_length,
      chunkRows_getD_length (w / 2) (h / 2) (i / 2) hwh _ hUua (by omega)]
    omega
  have hVrow : ∀ i, i < h →
      (repeatTwice
        ((chunkRows (w / 2) (useful_array vP vS (w / 2))).getD (i / 2) [])).length
        = w := by
    intro i hi
    rw [repeatTwice_length,
      chunkRows_getD_length (w / 2) (h / 2) (i / 2) hwh _ hVua (by omega)]
    omega
  have hres0 : frames_import_yuva width0 yP uP vP aP yS uS vS aS
      = zipWith4 (fun ry ru rv ra => zipWith4 yuvaPixel ry ru rv ra)
          (chunkRows w (useful_array yP yS w))
          ((repeatTwice (chunkRows (w / 2) (useful_array uP uS (w / 2)))).map
            repeatTwice)
          ((repeatTwice (chunkRows (w / 2) (useful_array vP vS (w / 2)))).map
            repeatTwice)
          (chunkRows w (useful_array aP aS w)) := by
    simp only [frames_import_yuva]
    rw [hw]
  have hrow : ∀ i, i < h →
      (frames_import_yuva width0 yP uP vP aP yS uS vS aS).getD i []
        = zipWith4 yuvaPixel
            ((chunkRows w (useful_array yP yS w)).getD i [])
            (repeatTwice
              ((chunkRows (w / 2) (useful_array uP uS (w / 2))).getD (i / 2) []))
            (repeatTwice
              ((chunkRows (w / 2) (useful_array vP vS (w / 2))).getD (i / 2) []))
            ((chunkRows w (useful_array aP aS w)).getD i []) := by
    intro i hi
    rw [hres0]
    rw [zipWith4_getD _ [] [] [] [] [] h i _ _ _ _ hYlen hU2len hV2len hAlen hi]
    rw [hU2getD i hi, hV2getD i hi]
  refine ⟨?_, ?_, yuvaPixel_explicit, ?_⟩
  · rw [hres0]
    exact zipWith4_length _ h _ _ _ _ hYlen hU2len hV2len hAlen
  · intro i hi
    rw [hrow i hi]
    exact zipWith4_length yuvaPixel w _ _ _ _ (hYrow i hi) (hUrow i hi)
      (hVrow i hi) (hArow i hi)
  · intro i j hi hj
    rw [hrow i hi]
    rw [zipWith4_getD yuvaPixel 0 0 0 0 (0, 0, 0, 0) w j _ _ _ _ (hYrow i hi)
      (hUrow i hi) (hVrow i hi) (hArow i hi) hj]
    rw [plane_cell yP yS w h i j hw1 hyS hyL hi hj]
    rw [repeatTwice_getD 0 _ j (by
      rw [chunkRows_getD_length (w / 2) (h / 2) (i / 2) hwh _ hUua (by omega)]
      omega)]
    rw [plane_cell uP uS (w / 2) (h / 2) (i / 2) (j / 2) hwh huS huL (by omega)
      (by omega)]
    rw [repeatTwice_getD 0 _ j (by
      rw [chunkRows_getD_length (w / 2) (h / 2) (i / 2) hwh _ hVua (by omega)]
      omega)]
    rw [plane_cell vP vS (w / 2) (h / 2) (i / 2) (j / 2) hwh hvS hvL (by omega)
      (by omega)]
    rw [plane_cell aP aS w h i j hw1 haS haL hi hj]

/-- Claim C7 counterexample: the code's coefficient matrix is BT.709, not the
BT.601 matrix the spec names. At the studio-swing extreme Y=16, U=128, V=240
the code's pixel transform yields red 200 (1.793·112 = 200.816, truncated),
while the BT.601 matrix yields red 178 (1.596·112 = 178.752, truncated). -/
theorem C7_counterexample :
    yuvaPixel 16 128 240 77 = (200, 0, 0, 77)
      ∧ bt601Pixel 16 128 240 77 = (178, 0, 0, 77)
      ∧ yuvaPixel 16 128 240 77 ≠ bt601Pixel 16 128 240 77 := by
  have hy : clipQ ((16 : ℕ) : ℚ) 16 235 - 16 = 0 := by
    norm_num [clipQ, min_def, max_def]
  have hu : clipQ ((128 : ℕ) : ℚ) 16 240 - 128 = 0 := by
    norm_num [clipQ, min_def, max_def]
  have hv : clipQ ((240 : ℕ) : ℚ) 16 240 - 128 = 112 := by
    norm_num [clipQ, min_def, max_def]
  have h1 : yuvaPixel 16 128 240 77 = (200, 0, 0, 77) := by
    simp only [yuvaPixel]
    rw [hy, hu, hv]
    norm_num [toU8, clipQ, pyTrunc, min_def, max_def, Prod.ext_iff]
    decide
  have h2 : bt601Pixel 16 128 240 77 = (178, 0, 0, 77) := by
    simp only [bt601Pixel]
    rw [hy, hu, hv]
    norm_num [toU8, clipQ, pyTrunc, min_def, max_def, Prod.ext_iff]
    decide
  refine ⟨h1, h2, ?_⟩
  rw [h1, h2]
  decide

/-- Concrete run of claim C7's theorem: a 3×2 source frame (width truncated to
2), luma/alpha strides 3 and 2, chroma strides 1. -/
theorem C7_yuva_decode_witness :
    (frames_import_yuva 3 [1, 2, 3, 4, 5, 6] [7] [9] [10, 11, 12, 13]
        3 1 1 2).length = 2
    ∧ ((frames_import_yuva 3 [1, 2, 3, 4, 5, 6] [7] [9] [10, 11, 12, 13]
        3 1 1 2).getD 0 []).getD 0 (0, 0, 0, 0)
        = yuvaPixel 1 7 9 10 := by
  have H := C7_yuva_decode 3 2 2 2 3 1 1 2 [1, 2, 3, 4, 5, 6] [7] [9]
    [10, 11, 12, 13] (by decide) (by decide) (by decide) (by decide) (by decide)
    (by decide) (by decide) (by decide) (by decide) (by decide) (by decide)
    (by decide)
  refine ⟨H.1, ?_⟩
  rw [H.2.2.2 0 0 (by decide) (by decide)]
  rfl

end StickerConvert
